import Mathlib

/-!
# KnightTour: a shallow embedding of `main.cpp`

The development follows the source file top to bottom: the constants and records,
the adjacent-swap move encoder `changeCombination`, the iterative search
`knightTourI`, the best-score update of `run`, and the dispatch loop of
`tryCombinations`.

Machine integers are natural numbers; where the source relies on unsigned
wrap-around (the sum of a `uint32_t` coordinate and an `int32_t` delta) the
reduction modulo `2 ^ 32` is explicit.  The board size `N` and the try budget
`MAX_TRIES` are preprocessor constants in the source; the search is embedded with
both as parameters `n` and `maxTries`, and the program is the instance
`n = N`, `maxTries = MAX_TRIES`.
-/

namespace KnightTour

/-! ## Constants and records -/

/-- Board side, `#define N 8`. -/
def N : Nat := 8

/-- Number of knight offsets, `#define MOVES_COUNT 8`. -/
def MOVES_COUNT : Nat := 8

/-- Try budget, `#define MAX_TRIES 1000000000`. -/
def MAX_TRIES : Nat := 1000000000

/-- Concurrency cap, `#define MAX_THREAD_COUNT 8`. -/
def MAX_THREAD_COUNT : Nat := 8

/-- Largest `uint32_t`. -/
def UINT32_MAX : Nat := 4294967295

/-- Largest `uint64_t`. -/
def UINT64_MAX : Nat := 18446744073709551615

/-- A signed offset, `struct Vec2i`. -/
structure Vec2i where
  x : Int
  y : Int
deriving DecidableEq, Repr

/-- One frame of the explicit stack, `struct StackEntry`. -/
structure StackEntry where
  x : Nat
  y : Nat
  nextMoveIdx : Nat
deriving DecidableEq, Repr

/-- The record `struct BestScore`. -/
structure BestScore where
  tries : Nat
  combIdx : Nat
deriving DecidableEq, Repr

/-- The state after `BestScore::reset`: both fields at their maximum. -/
def BestScore.reset : BestScore := ⟨UINT64_MAX, UINT32_MAX⟩

/-! ## The move encoder -/

/-- The effect of `std::iter_swap(begin + a, begin + b)` on a vector. -/
def iterSwap {α : Type} (v : List α) (a b : Nat) : List α :=
  match v[a]?, v[b]? with
  | some p, some q => (v.set a q).set b p
  | _, _ => v

/-- The loop of `changeCombination` with `i` the current value of the local
counter and the first argument the number of iterations still to run. -/
def changeCombinationFrom {α : Type} : Nat → Nat → List α → List α
  | 0, _, v => v
  | k + 1, i, v =>
    changeCombinationFrom k (i + 1) (iterSwap v (i % v.length) ((i + 1) % v.length))

/-- The method `estd::vector::changeCombination(n)`: `i` starts at `0`. -/
def changeCombination {α : Type} (v : List α) (n : Nat) : List α :=
  changeCombinationFrom n 0 v

/-- The initialiser list of `moves` in `knightTourI`, in source order. -/
def canonicalMoves : List Vec2i :=
  [⟨-2, 1⟩, ⟨-1, 2⟩, ⟨1, 2⟩, ⟨2, 1⟩, ⟨2, -1⟩, ⟨1, -2⟩, ⟨-1, -2⟩, ⟨-2, -1⟩]

/-- The vector `moves` of `knightTourI` after `moves.changeCombination(combIdx)`. -/
def movesFor (combIdx : Nat) : List Vec2i :=
  changeCombination canonicalMoves combIdx

/-! ## The best-score update of `run` -/

/-- What a finished worker reports: the pair returned by `knightTourI` and the
combination index the worker ran with. -/
structure Report where
  found : Bool
  tries : Nat
  combIdx : Nat
deriving DecidableEq, Repr

/-- The guarded assignment at the end of `run` (the part under the lock that
touches `bestScore`). -/
def updateBest (b : BestScore) (r : Report) : BestScore :=
  if r.found = true ∧ r.tries ≤ b.tries then
    if r.tries < b.tries then ⟨r.tries, r.combIdx⟩ else b
  else b

/-- The tracker after a sequence of reports, applied in order of arrival. -/
def applyReports (b : BestScore) (rs : List Report) : BestScore :=
  rs.foldl updateBest b

/-! ## The iterative search `knightTourI` -/

/-- The local array `uint32_t checkerboard[N][N]` of `knightTourI`: a list of
rows, `checkerboard[x]` being row `x`. -/
abbrev Board := List (List Nat)

/-- The array after `= { { 0 } }`, for side `n`. -/
def emptyBoard (n : Nat) : Board := List.replicate n (List.replicate n 0)

/-- The read `checkerboard[x][y]`. -/
def Board.get (b : Board) (x y : Nat) : Nat := (b.getD x []).getD y 0

/-- The assignment `checkerboard[x][y] = v`. -/
def Board.set (b : Board) (x y v : Nat) : Board :=
  List.set b x ((b.getD x []).set y v)

/-- The macro `IS_VALID(x, y)` for a board of side `n`; the conjunction is
short-circuit, so the array is read only when both coordinates are below `n`. -/
def IS_VALID (n : Nat) (b : Board) (x y : Nat) : Bool :=
  decide (x < n) && (decide (y < n) && decide (b.get x y = 0))

/-- The sum `e->x + moves[i].x` of a `uint32_t` and an `int32_t`: the signed
operand is converted and the sum is taken modulo `2 ^ 32`. -/
def addU32 (c : Nat) (d : Int) : Nat :=
  (((c : Int) + d) % 4294967296).toNat

/-- The variables of the main loop: the board, the frames between `stack + 1`
and `s` (top frame first, so `STACK_SIZE()` is the length), and `tries`. -/
structure State where
  checkerboard : Board
  stack : List StackEntry
  tries : Nat

/-- How the inner `while (i < MOVES_COUNT)` loop is left. -/
inductive Scan where
  /-- By `return` because `++tries >= MAX_TRIES`. -/
  | budget (tries : Nat)
  /-- By `break` at index `i`: the target `(x, y)` passed `IS_VALID`. -/
  | advance (i x y tries : Nat)
  /-- By its condition, with `i = MOVES_COUNT`. -/
  | exhausted (tries : Nat)
deriving DecidableEq, Repr

/-- The inner loop from index `i`; the first argument is the number of indices
left, `MOVES_COUNT - i`.  The counter is incremented before `IS_VALID` is
evaluated. -/
def scanMoves (n maxTries : Nat) (moves : List Vec2i) (b : Board) (e : StackEntry) :
    Nat → Nat → Nat → Scan
  | 0, _, tries => Scan.exhausted tries
  | k + 1, i, tries =>
    let m := moves.getD i ⟨0, 0⟩
    let x := addU32 e.x m.x
    let y := addU32 e.y m.y
    if tries + 1 ≥ maxTries then Scan.budget (tries + 1)
    else if IS_VALID n b x y = true then Scan.advance i x y (tries + 1)
    else scanMoves n maxTries moves b e k (i + 1) (tries + 1)

/-- What one pass through the body of the main loop does. -/
inductive Step where
  /-- The function returned from inside the body. -/
  | budget (st : State)
  /-- The body ran to its end and left these variables. -/
  | next (st : State)

/-- The body of the main loop, with `e` the top frame and `rest` the frames
under it: either a push (the top frame remembers the next index to try, the new
cell receives the new stack size) or a pop (the cell of `e` is cleared). -/
def loopBody (n maxTries : Nat) (moves : List Vec2i) (b : Board) (e : StackEntry)
    (rest : List StackEntry) (tries : Nat) : Step :=
  match scanMoves n maxTries moves b e (MOVES_COUNT - e.nextMoveIdx) e.nextMoveIdx tries with
  | Scan.budget t => Step.budget ⟨b, e :: rest, t⟩
  | Scan.advance i x y t =>
    Step.next ⟨b.set x y (rest.length + 2),
      ⟨x, y, 0⟩ :: ⟨e.x, e.y, i + 1⟩ :: rest, t⟩
  | Scan.exhausted t => Step.next ⟨b.set e.x e.y 0, rest, t⟩

/-- How the main loop is left. -/
inductive Exit where
  /-- By the `return` inside the inner loop. -/
  | budget (st : State)
  /-- By its condition `!STACK_ISEMPTY() && STACK_SIZE() < N * N` being false. -/
  | finished (st : State)
  /-- The model ran out of iterations (shown below not to happen). -/
  | outOfFuel

/-- The main loop, iterated at most `fuel` times. -/
def mainLoop (n maxTries : Nat) (moves : List Vec2i) : Nat → State → Exit
  | _, ⟨b, [], t⟩ => Exit.finished ⟨b, [], t⟩
  | 0, ⟨b, e :: rest, t⟩ =>
    if rest.length + 1 < n * n then Exit.outOfFuel else Exit.finished ⟨b, e :: rest, t⟩
  | fuel + 1, ⟨b, e :: rest, t⟩ =>
    if rest.length + 1 < n * n then
      match loopBody n maxTries moves b e rest t with
      | Step.budget st => Exit.budget st
      | Step.next st => mainLoop n maxTries moves fuel st
    else Exit.finished ⟨b, e :: rest, t⟩

/-- The variables when the main loop is first reached: one frame for the start
cell, which holds `STACK_SIZE() = 1`. -/
def initState (n x y : Nat) : State :=
  ⟨(emptyBoard n).set x y 1, [⟨x, y, 0⟩], 0⟩

/-- Iterations granted to the main loop: every pass either counts a try or
pops a frame, which bounds the passes by twice the budget plus one. -/
def searchFuel (maxTries : Nat) : Nat := 2 * maxTries + 2

/-- The function `knightTourI` up to its `return`, keeping the final variables;
`none` is the failed `assert(IS_VALID(x, y))`. -/
def knightTourIExit (n maxTries x y combIdx : Nat) : Option Exit :=
  if IS_VALID n (emptyBoard n) x y = true then
    some (mainLoop n maxTries (movesFor combIdx) (searchFuel maxTries) (initState n x y))
  else none

/-- What a call of `knightTourI` produces. -/
inductive Outcome where
  /-- The `assert` aborted the program. -/
  | assertionFailed
  /-- The model ran out of iterations. -/
  | outOfFuel
  /-- The tuple `(found, tries)`. -/
  | returned (found : Bool) (tries : Nat)
deriving DecidableEq, Repr

/-- The value returned at each way out of the main loop. -/
def Exit.result : Exit → Outcome
  | Exit.budget st => Outcome.returned false st.tries
  | Exit.finished st => Outcome.returned (!st.stack.isEmpty) st.tries
  | Exit.outOfFuel => Outcome.outOfFuel

/-- The function `knightTourI(x, y, combIdx)` on a board of side `n` with budget
`maxTries`. -/
def knightTourI (n maxTries x y combIdx : Nat) : Outcome :=
  match knightTourIExit n maxTries x y combIdx with
  | none => Outcome.assertionFailed
  | some ex => ex.result

/-- What `run(x, y, combIdx)` reports to the tracker: the pair returned by its
call `knightTourI(x, y, combIdx)` together with the index; `none` when the call
returns no pair. -/
def runReport (n maxTries x y combIdx : Nat) : Option Report :=
  match knightTourI n maxTries x y combIdx with
  | Outcome.returned found tries => some ⟨found, tries, combIdx⟩
  | _ => none

/-! ## Knight's tours -/

/-- Two cells are one knight move apart: the coordinates differ by one in one
direction and by two in the other. -/
def KnightStep (p q : Nat × Nat) : Prop :=
  (((p.1 : Int) - q.1).natAbs = 1 ∧ ((p.2 : Int) - q.2).natAbs = 2) ∨
  (((p.1 : Int) - q.1).natAbs = 2 ∧ ((p.2 : Int) - q.2).natAbs = 1)

instance (p q : Nat × Nat) : Decidable (KnightStep p q) := by
  unfold KnightStep; infer_instance

/-- The board of side `n` records a knight's tour from `(x, y)`: the start cell
holds `1`, every value in `1..n*n` is held by exactly one cell of the board, and
the cells holding `k` and `k + 1` are one knight move apart. -/
def IsTourBoard (n : Nat) (b : Board) (x y : Nat) : Prop :=
  b.get x y = 1 ∧
  (∀ k, 1 ≤ k → k ≤ n * n →
    ∃! c : Nat × Nat, c.1 < n ∧ c.2 < n ∧ b.get c.1 c.2 = k) ∧
  (∀ k, 1 ≤ k → k < n * n → ∀ c d : Nat × Nat,
    c.1 < n → c.2 < n → d.1 < n → d.2 < n →
    b.get c.1 c.2 = k → b.get d.1 d.2 = k + 1 → KnightStep c d)

/-- A knight's tour of the board of side `n` from `(x, y)`, as the list of cells
in visiting order: all `n * n` cells once each, consecutive cells one knight move
apart. -/
def IsTourFrom (n x y : Nat) (p : List (Nat × Nat)) : Prop :=
  p.length = n * n ∧ p.head? = some (x, y) ∧ p.Nodup ∧
  (∀ c ∈ p, c.1 < n ∧ c.2 < n) ∧ p.Chain' KnightStep

/-! ## The dispatch loop of `tryCombinations` -/

/-- Where the orchestrating thread stands in the `for` loop. -/
inductive Pc where
  /-- At the loop test `i < combinations`, before `++currentThreadCount`. -/
  | loopHead
  /-- After the increment, before `std::async` has started the worker. -/
  | launch
  /-- About to load the counter for `currentThreadCount == MAX_THREAD_COUNT`. -/
  | check1
  /-- About to load the counter for `currentThreadCount > 0` (last index only). -/
  | check2
  /-- Inside `cv.wait(lock)`. -/
  | blocked
  /-- Past the loop. -/
  | done
deriving DecidableEq, Repr

/-- The shared variables of a batch: the orchestrator's position and index, the
atomic counter, and the number of workers started whose `run` has not yet
executed `--currentThreadCount`. -/
structure Orch where
  pc : Pc
  i : Nat
  currentThreadCount : Nat
  running : Nat
deriving DecidableEq, Repr

/-- Who takes the next atomic step. -/
inductive Actor where
  | orchestrator
  | worker
deriving DecidableEq, Repr

/-- One atomic step.  The orchestrator follows the loop of `tryCombinations`
(a blocked wait may end at any time); a worker reaching the end of `run`
decrements the counter.  Counter and index are `uint32_t`. -/
def orchStep (combinations : Nat) : Actor → Orch → Option Orch
  | Actor.worker, s =>
    if 0 < s.running then
      some { s with currentThreadCount := (s.currentThreadCount + 4294967295) % 4294967296,
                    running := s.running - 1 }
    else none
  | Actor.orchestrator, s =>
    match s.pc with
    | Pc.loopHead =>
      if s.i < combinations then
        some { s with pc := Pc.launch,
                      currentThreadCount := (s.currentThreadCount + 1) % 4294967296 }
      else some { s with pc := Pc.done }
    | Pc.launch => some { s with pc := Pc.check1, running := s.running + 1 }
    | Pc.check1 =>
      if s.currentThreadCount = MAX_THREAD_COUNT then some { s with pc := Pc.blocked }
      else if s.i = (combinations + 4294967295) % 4294967296 then
        some { s with pc := Pc.check2 }
      else some { s with pc := Pc.loopHead, i := (s.i + 1) % 4294967296 }
    | Pc.check2 =>
      if 0 < s.currentThreadCount then some { s with pc := Pc.blocked }
      else some { s with pc := Pc.loopHead, i := (s.i + 1) % 4294967296 }
    | Pc.blocked => some { s with pc := Pc.check1 }
    | Pc.done => none

/-- The variables when `tryCombinations` enters its dispatch loop: `i = 0`, the
counter at its initial value `0`, no worker started. -/
def orchInit : Orch := ⟨Pc.loopHead, 0, 0, 0⟩

/-- The states a batch of `combinations` indices can reach. -/
inductive Reachable (combinations : Nat) : Orch → Prop
  | init : Reachable combinations orchInit
  | step {s t : Orch} (a : Actor) :
      Reachable combinations s → orchStep combinations a s = some t →
      Reachable combinations t


/-! ## The global variables and the recursive search -/

/-- The global variables `checkerboard` and `tries` of the program, the ones
`knightTourR` works on. -/
structure Globals where
  checkerboard : Board
  tries : Nat
deriving DecidableEq, Repr

/-- The variables that the names `checkerboard` and `tries` can denote while a
function body runs: the two globals, and the locals of the same names once the
body has passed their declarations (`none` before that). -/
structure Store where
  globals : Globals
  localBoard : Option Board
  localTries : Option Nat
deriving DecidableEq, Repr

/-- The array that the name `checkerboard` denotes: the local if one has been
declared, the global otherwise. -/
def Store.board (s : Store) : Board :=
  match s.localBoard with
  | some b => b
  | none => s.globals.checkerboard

/-- The assignment `checkerboard[x][y] = v`, made to the array that the name
denotes. -/
def Store.setCell (s : Store) (x y v : Nat) : Store :=
  match s.localBoard with
  | some b => ⟨s.globals, some (b.set x y v), s.localTries⟩
  | none => ⟨⟨s.globals.checkerboard.set x y v, s.globals.tries⟩, none, s.localTries⟩

/-- The value of the variable that the name `tries` denotes. -/
def Store.triesVal (s : Store) : Nat :=
  match s.localTries with
  | some t => t
  | none => s.globals.tries

/-- An assignment of `v` to the variable that the name `tries` denotes. -/
def Store.setTries (s : Store) (v : Nat) : Store :=
  match s.localTries with
  | some _ => ⟨s.globals, s.localBoard, some v⟩
  | none => ⟨⟨s.globals.checkerboard, v⟩, s.localBoard, none⟩

/-- The declaration `uint32_t checkerboard[N][N] = { { 0 } };` inside a body. -/
def Store.declareBoard (s : Store) (b : Board) : Store :=
  ⟨s.globals, some b, s.localTries⟩

/-- The declaration `uint64_t tries = 0;` inside a body. -/
def Store.declareTries (s : Store) (v : Nat) : Store :=
  ⟨s.globals, s.localBoard, some v⟩

/-- The inner loop of `knightTourI` with every occurrence of `tries` and of
`checkerboard` (the latter through the text of `IS_VALID`, expanded where it is
used) resolved in the store; it returns how the loop was left and the store. -/
def scanMovesIn (n maxTries : Nat) (moves : List Vec2i) (e : StackEntry) :
    Nat → Nat → Store → Scan × Store
  | 0, _, s => (Scan.exhausted s.triesVal, s)
  | k + 1, i, s =>
    let m := moves.getD i ⟨0, 0⟩
    let x := addU32 e.x m.x
    let y := addU32 e.y m.y
    let s1 := s.setTries (s.triesVal + 1)
    if s1.triesVal ≥ maxTries then (Scan.budget s1.triesVal, s1)
    else if IS_VALID n s1.board x y = true then (Scan.advance i x y s1.triesVal, s1)
    else scanMovesIn n maxTries moves e k (i + 1) s1

/-- What one pass through the body of the main loop does, on a store. -/
inductive StepIn where
  /-- The function returned from inside the body. -/
  | budget (s : Store) (stack : List StackEntry)
  /-- The body ran to its end. -/
  | next (s : Store) (stack : List StackEntry)

/-- The body of the main loop on a store: the two assignments to
`checkerboard[..][..]` go to the array the name denotes. -/
def loopBodyIn (n maxTries : Nat) (moves : List Vec2i) (e : StackEntry)
    (rest : List StackEntry) (s : Store) : StepIn :=
  match scanMovesIn n maxTries moves e (MOVES_COUNT - e.nextMoveIdx) e.nextMoveIdx s with
  | (Scan.budget _, s1) => StepIn.budget s1 (e :: rest)
  | (Scan.advance i x y _, s1) =>
    StepIn.next (s1.setCell x y (rest.length + 2)) (⟨x, y, 0⟩ :: ⟨e.x, e.y, i + 1⟩ :: rest)
  | (Scan.exhausted _, s1) => StepIn.next (s1.setCell e.x e.y 0) rest

/-- How the main loop is left, on a store. -/
inductive ExitIn where
  /-- By the `return` inside the inner loop. -/
  | budget (s : Store) (stack : List StackEntry)
  /-- By its condition being false. -/
  | finished (s : Store) (stack : List StackEntry)
  /-- The model ran out of iterations. -/
  | outOfFuel (s : Store)

/-- The main loop on a store, iterated at most `fuel` times. -/
def mainLoopIn (n maxTries : Nat) (moves : List Vec2i) :
    Nat → Store → List StackEntry → ExitIn
  | _, s, [] => ExitIn.finished s []
  | 0, s, e :: rest =>
    if rest.length + 1 < n * n then ExitIn.outOfFuel s else ExitIn.finished s (e :: rest)
  | fuel + 1, s, e :: rest =>
    if rest.length + 1 < n * n then
      match loopBodyIn n maxTries moves e rest s with
      | StepIn.budget s1 stack => ExitIn.budget s1 stack
      | StepIn.next s1 stack => mainLoopIn n maxTries moves fuel s1 stack
    else ExitIn.finished s (e :: rest)

/-- The store with which the main loop was left. -/
def ExitIn.store : ExitIn → Store
  | ExitIn.budget s _ => s
  | ExitIn.finished s _ => s
  | ExitIn.outOfFuel s => s

/-- The value returned at each way out of the main loop; `tries` in the `return`
statements is read from the variable the name denotes. -/
def ExitIn.result : ExitIn → Outcome
  | ExitIn.budget s _ => Outcome.returned false s.triesVal
  | ExitIn.finished s stack => Outcome.returned (!stack.isEmpty) s.triesVal
  | ExitIn.outOfFuel _ => Outcome.outOfFuel

/-- A call of `knightTourI(x, y, combIdx)` in a program whose globals are `g`,
statement by statement on a store: entry with no local declared, the declaration
of the local `checkerboard`, the `assert`, the declaration of the local `tries`,
the assignment `checkerboard[x][y] = STACK_SIZE()`, the main loop.  It gives the
outcome of the call and the globals at that moment (the locals end with the
call). -/
def knightTourIIn (n maxTries : Nat) (g : Globals) (x y combIdx : Nat) :
    Outcome × Globals :=
  let s0 : Store := ⟨g, none, none⟩
  let s1 := s0.declareBoard (emptyBoard n)
  if IS_VALID n s1.board x y = true then
    let s2 := s1.declareTries 0
    let s3 := s2.setCell x y 1
    let ex := mainLoopIn n maxTries (movesFor combIdx) (searchFuel maxTries) s3 [⟨x, y, 0⟩]
    (ex.result, ex.store.globals)
  else (Outcome.assertionFailed, s1.globals)

/-- The value of the counter with which the inner loop was left. -/
def Scan.tries : Scan → Nat
  | Scan.budget t => t
  | Scan.advance _ _ _ t => t
  | Scan.exhausted t => t

/-- The store with globals `g` in which both locals are declared and hold the
board and the counter of `st`. -/
def State.inStore (g : Globals) (st : State) : Store :=
  ⟨g, some st.checkerboard, some st.tries⟩

/-- A step on the variables of the search, seen on a store with globals `g`. -/
def Step.inStore (g : Globals) : Step → StepIn
  | Step.budget st => StepIn.budget (st.inStore g) st.stack
  | Step.next st => StepIn.next (st.inStore g) st.stack

/-- The chain `knightTourR(..) || knightTourR(..) || ...` from the cell `(x, y)`:
the calls are made in the order of the offsets until one returns `true`; `call`
is the function called, `none` a call that did not return. -/
def orChain (call : Globals → Nat → Nat → Option (Bool × Globals)) (x y : Nat) :
    List Vec2i → Globals → Option (Bool × Globals)
  | [], g => some (false, g)
  | m :: ms, g =>
    match call g (addU32 x m.x) (addU32 y m.y) with
    | none => none
    | some (true, g') => some (true, g')
    | some (false, g') => orChain call x y ms g'

/-- The function `knightTourR(x, y, num)` on a board of side `n`, working on the
globals; the first argument bounds the nesting of calls (`none` when it is
exceeded).  The eight calls of the source are made in the order of
`canonicalMoves`, with the unsigned sums of the source; `tries` is `uint64_t`. -/
def knightTourR (n : Nat) : Nat → Globals → Nat → Nat → Nat → Option (Bool × Globals)
  | 0, _, _, _, _ => none
  | depth + 1, g, x, y, num =>
    if num > n * n then some (true, g)
    else if IS_VALID n g.checkerboard x y = true then
      match orChain (fun g' x' y' => knightTourR n depth g' x' y' (num + 1)) x y canonicalMoves
          ⟨g.checkerboard.set x y num, (g.tries + 1) % 18446744073709551616⟩ with
      | none => none
      | some (true, g') => some (true, g')
      | some (false, g') => some (false, ⟨g'.checkerboard.set x y 0, g'.tries⟩)
    else some (false, ⟨g.checkerboard, (g.tries + 1) % 18446744073709551616⟩)

/-- Some run of the main loop from `s`, on the canonical order, leaves the loop
by its condition in the state `st`. -/
def RunsTo (n maxTries : Nat) (s st : State) : Prop :=
  ∃ fuel, mainLoop n maxTries (movesFor 0) fuel s = Exit.finished st

/-- The simulation statement for one call of `knightTourR` with nesting bound `d`,
made for offset `i` of the frame `(x, y)`: if the main loop, from the state whose
top frame is about to try offset `i`, ends by its condition in `st`, then either
the call returns `true` with the board of `st` and one try more than `st`, or it
returns `false` and the main loop passes through the state in which the frame is
about to try offset `i + 1`, with the globals the call left. -/
def CallSim (n maxTries d : Nat) : Prop :=
  ∀ (b : Board) (rest : List StackEntry) (x y i t : Nat) (st : State),
    rest.length + 1 < n * n → n * n ≤ d + rest.length → i < MOVES_COUNT →
    RunsTo n maxTries ⟨b, ⟨x, y, i⟩ :: rest, t⟩ st →
    (knightTourR n d ⟨b, t + 1⟩ (addU32 x (canonicalMoves.getD i ⟨0, 0⟩).x)
        (addU32 y (canonicalMoves.getD i ⟨0, 0⟩).y) (rest.length + 2)
        = some (true, ⟨st.checkerboard, st.tries + 1⟩) ∧ st.stack ≠ []) ∨
    (∃ b' t', knightTourR n d ⟨b, t + 1⟩ (addU32 x (canonicalMoves.getD i ⟨0, 0⟩).x)
        (addU32 y (canonicalMoves.getD i ⟨0, 0⟩).y) (rest.length + 2)
        = some (false, ⟨b', t' + 1⟩) ∧
      RunsTo n maxTries ⟨b', ⟨x, y, i + 1⟩ :: rest, t'⟩ st)

/-- The simulation statement for the chain of calls from offset `j` on: either
some call returns `true` with the board of `st` and one try more, or all return
`false` and the main loop passes through the state in which the frame has been
popped. -/
def ChainSim (n maxTries d : Nat) : Prop :=
  ∀ (k j : Nat) (b : Board) (rest : List StackEntry) (x y t : Nat) (st : State),
    j + k = MOVES_COUNT → rest.length + 1 < n * n → n * n ≤ d + rest.length →
    RunsTo n maxTries ⟨b, ⟨x, y, j⟩ :: rest, t⟩ st →
    (orChain (fun g' x' y' => knightTourR n d g' x' y' (rest.length + 2)) x y
        (canonicalMoves.drop j) ⟨b, t + 1⟩
        = some (true, ⟨st.checkerboard, st.tries + 1⟩) ∧ st.stack ≠ []) ∨
    (∃ b' t', orChain (fun g' x' y' => knightTourR n d g' x' y' (rest.length + 2)) x y
        (canonicalMoves.drop j) ⟨b, t + 1⟩
        = some (false, ⟨b', t' + 1⟩) ∧
      RunsTo n maxTries ⟨b'.set x y 0, rest, t'⟩ st)

/-! ## Invariants of the search -/

/-- The array has `n` rows of `n` entries. -/
def Board.WF (n : Nat) (b : Board) : Prop :=
  b.length = n ∧ ∀ row ∈ b, row.length = n

/-- The cell a frame stands on. -/
def StackEntry.cell (e : StackEntry) : Nat × Nat := (e.x, e.y)

/-- The cell tried from frame `e` with offset `m`, computed as in the inner loop. -/
def target (e : StackEntry) (m : Vec2i) : Nat × Nat :=
  (addU32 e.x m.x, addU32 e.y m.y)

/-- The counting invariant of the main loop: the budget is not yet reached,
every frame above the first cost at least one try, and the stack holds at most
`n * n` frames. -/
def Counted (n maxTries : Nat) (st : State) : Prop :=
  st.tries < maxTries ∧ st.stack.length ≤ st.tries + 1 ∧ st.stack.length ≤ n * n

/-- The invariant of the dispatch loop: the counter equals the number of running
workers (plus one between the increment and the launch), it is at most the cap,
and it is below the cap whenever the orchestrator is about to increment it or has
passed the first test of its wait loop. -/
def OrchInv (s : Orch) : Prop :=
  s.currentThreadCount = s.running + (if s.pc = Pc.launch then 1 else 0) ∧
  s.currentThreadCount ≤ MAX_THREAD_COUNT ∧
  ((s.pc = Pc.loopHead ∨ s.pc = Pc.check2) → s.currentThreadCount < MAX_THREAD_COUNT)

/-- How frame `e` is tied to the frames under it: the lowest frame stands on the
start cell, any other is one knight move from the frame below. -/
def Linked (sx sy : Nat) (e : StackEntry) : List StackEntry → Prop
  | [] => e.x = sx ∧ e.y = sy
  | f :: _ => KnightStep f.cell e.cell

/-- The frames of the stack (top first) against the board: each frame lies on the
board, its cell holds its depth, and it is linked to the frames under it. -/
def PathOK (n sx sy : Nat) (b : Board) : List StackEntry → Prop
  | [] => True
  | e :: rest =>
    e.x < n ∧ e.y < n ∧ b.get e.x e.y = rest.length + 1 ∧ Linked sx sy e rest ∧
    PathOK n sx sy b rest

/-- The path invariant of the main loop: the board is `n` by `n`, the frames
form a path from the start whose `k`-th cell holds `k`, and every other cell of
the board holds `0`. -/
def PathInv (n sx sy : Nat) (st : State) : Prop :=
  Board.WF n st.checkerboard ∧ PathOK n sx sy st.checkerboard st.stack ∧
  ∀ x y, x < n → y < n → st.checkerboard.get x y ≠ 0 →
    ∃ e ∈ st.stack, e.x = x ∧ e.y = y

/-- The cells of the frames of a stack, lowest frame first. -/
def pathOf (s : List StackEntry) : List (Nat × Nat) :=
  (s.map StackEntry.cell).reverse

/-- The path `p` is still ahead of the search: it follows the stack up to some
frame `f` and leaves `f` by an offset whose index `f` has not yet passed. -/
def Covered (moves : List Vec2i) (stack : List StackEntry) (p : List (Nat × Nat)) : Prop :=
  ∃ pre f post m rest, stack = pre ++ f :: post ∧ f.nextMoveIdx ≤ m ∧ m < MOVES_COUNT ∧
    p = pathOf (f :: post) ++ target f (moves.getD m ⟨0, 0⟩) :: rest

/-- The exhaustiveness invariant of the main loop: the stack is full, or every
tour from the start is still ahead of the search. -/
def Complete (n sx sy : Nat) (moves : List Vec2i) (st : State) : Prop :=
  st.stack.length = n * n ∨
  ∀ p, IsTourFrom n sx sy p → Covered moves st.stack p

/-- The states the main loop of `knightTourI` passes through from the start cell
`(x, y)`: the state on entry, the state after every pass through the body, and
the state in which the body returns on the budget. -/
inductive LoopReach (n maxTries : Nat) (moves : List Vec2i) (x y : Nat) : State → Prop
  | init : LoopReach n maxTries moves x y (initState n x y)
  | pass {b : Board} {e : StackEntry} {rest : List StackEntry} {t : Nat} {st : State} :
      LoopReach n maxTries moves x y ⟨b, e :: rest, t⟩ → rest.length + 1 < n * n →
      loopBody n maxTries moves b e rest t = Step.next st →
      LoopReach n maxTries moves x y st
  | stop {b : Board} {e : StackEntry} {rest : List StackEntry} {t : Nat} {st : State} :
      LoopReach n maxTries moves x y ⟨b, e :: rest, t⟩ → rest.length + 1 < n * n →
      loopBody n maxTries moves b e rest t = Step.budget st →
      LoopReach n maxTries moves x y st

/-- The frames of a stack against a board, by depth: with `cells` the cells of
the frames from the lowest, frame `k` (the entry `k - 1` of `cells`) lies on the
board and its cell holds `k`, frame `1` is the start cell, and frames `k` and
`k + 1` are one knight move apart. -/
def PathIdx (n sx sy : Nat) (b : Board) (s : List StackEntry) : Prop :=
  (∀ k, 1 ≤ k → k ≤ s.length →
    ∃ c, (pathOf s)[k - 1]? = some c ∧ c.1 < n ∧ c.2 < n ∧ b.get c.1 c.2 = k) ∧
  (1 ≤ s.length → (pathOf s)[0]? = some (sx, sy)) ∧
  (∀ k, 1 ≤ k → k < s.length →
    ∃ c d, (pathOf s)[k - 1]? = some c ∧ (pathOf s)[k]? = some d ∧ KnightStep c d)

/-- The invariant of the main loop in terms of depths: the frames satisfy
`PathIdx`, every cell of the board that is not the cell of a frame holds `0`, and
the frames stand on pairwise distinct cells. -/
def FrameInv (n sx sy : Nat) (st : State) : Prop :=
  PathIdx n sx sy st.checkerboard st.stack ∧
  (∀ x y, x < n → y < n → (x, y) ∉ pathOf st.stack → st.checkerboard.get x y = 0) ∧
  (pathOf st.stack).Nodup

/-! ## Indexed accesses of the search -/

/-- One indexed access made by `knightTourI`. -/
inductive Access where
  /-- The entry `stack[slot]`, through the pointer `s` or `e`. -/
  | frame (slot : Nat)
  /-- The entry `checkerboard[x][y]`. -/
  | cell (x y : Nat)
  /-- The entry `moves[i]`. -/
  | move (i : Nat)
deriving DecidableEq, Repr

/-- The access stays inside its array and, for the stack, off the unused entry
`stack[0]`: the stack array has `1 + n * n` entries, the board `n` by `n`, the
vector of offsets `MOVES_COUNT`. -/
def Access.InRange (n : Nat) : Access → Prop
  | Access.frame slot => 1 ≤ slot ∧ slot ≤ n * n
  | Access.cell x y => x < n ∧ y < n
  | Access.move i => i < MOVES_COUNT

/-- The accesses of one evaluation of `IS_VALID(x, y)`: the board is read only
after both comparisons with `n` have succeeded. -/
def validAccesses (n x y : Nat) : List Access :=
  if x < n ∧ y < n then [Access.cell x y] else []

/-- The accesses of the inner loop, statement by statement as in `scanMoves`;
`depth` is `STACK_SIZE()`, the slot `e` points to.  Each round reads `e->x`,
`e->y` and `moves[i]`, evaluates `IS_VALID`, and on success writes
`e->nextMoveIdx`, the new top entry and the target cell. -/
def scanAccesses (n maxTries : Nat) (moves : List Vec2i) (b : Board) (e : StackEntry)
    (depth : Nat) : Nat → Nat → Nat → List Access
  | 0, _, _ => []
  | k + 1, i, tries =>
    let m := moves.getD i ⟨0, 0⟩
    let x := addU32 e.x m.x
    let y := addU32 e.y m.y
    Access.frame depth :: Access.move i ::
      (if tries + 1 ≥ maxTries then []
       else validAccesses n x y ++
        (if IS_VALID n b x y = true then
          [Access.frame depth, Access.frame (depth + 1), Access.cell x y]
         else scanAccesses n maxTries moves b e depth k (i + 1) (tries + 1)))

/-- The accesses of one pass through the body of the main loop: the read of
`e->nextMoveIdx`, the inner loop, and on a pop the read of `e->x`, `e->y` and the
write that clears the cell. -/
def bodyAccesses (n maxTries : Nat) (moves : List Vec2i) (b : Board) (e : StackEntry)
    (rest : List StackEntry) (tries : Nat) : List Access :=
  Access.frame (rest.length + 1) ::
    (scanAccesses n maxTries moves b e (rest.length + 1)
        (MOVES_COUNT - e.nextMoveIdx) e.nextMoveIdx tries ++
      (match scanMoves n maxTries moves b e (MOVES_COUNT - e.nextMoveIdx) e.nextMoveIdx tries with
       | Scan.exhausted _ => [Access.frame (rest.length + 1), Access.cell e.x e.y]
       | _ => []))

/-- The accesses before the main loop: the assertion, the first push, and the
write of `STACK_SIZE()` to the start cell. -/
def prologueAccesses (n x y : Nat) : List Access :=
  validAccesses n x y ++ [Access.frame 1, Access.cell x y]

/-! ## Lemmas on the move encoder -/

theorem cons_set_perm {α : Type} (p q : α) :
    ∀ (t : List α) (k : Nat), t[k]? = some q → List.Perm (q :: t.set k p) (p :: t) := by
  intro t
  induction t with
  | nil => intro k h; simp at h
  | cons h t ih =>
    intro k hk
    cases k with
    | zero =>
      simp at hk
      subst hk
      simpa using List.Perm.swap p h t
    | succ k =>
      simp at hk
      have h1 : List.Perm (h :: q :: t.set k p) (h :: p :: t) := (ih k hk).cons h
      simpa using ((List.Perm.swap h q (t.set k p)).trans h1).trans (List.Perm.swap p h t)

theorem iterSwap_perm {α : Type} (v : List α) (a b : Nat) :
    List.Perm (iterSwap v a b) v := by
  unfold iterSwap
  split
  · rename_i p q hp hq
    clear * - hp hq
    induction v generalizing a b with
    | nil => simp at hp
    | cons h t ih =>
      cases a with
      | zero =>
        simp at hp
        subst hp
        cases b with
        | zero => simp at hq; subst hq; simp
        | succ b =>
          simp at hq
          simpa using cons_set_perm h q t b hq
      | succ a =>
        simp at hp
        cases b with
        | zero =>
          simp at hq
          subst hq
          simpa using cons_set_perm h p t a hp
        | succ b =>
          simp at hq
          simpa using (ih a b hp hq)
  · exact List.Perm.refl v

theorem iterSwap_length {α : Type} (v : List α) (a b : Nat) :
    (iterSwap v a b).length = v.length :=
  (iterSwap_perm v a b).length_eq

theorem changeCombinationFrom_perm {α : Type} (k : Nat) :
    ∀ (i : Nat) (v : List α), List.Perm (changeCombinationFrom k i v) v := by
  induction k with
  | zero => intro i v; exact List.Perm.refl v
  | succ k ih =>
    intro i v
    exact (ih (i + 1) _).trans (iterSwap_perm v _ _)

theorem changeCombinationFrom_add {α : Type} (a b : Nat) :
    ∀ (i : Nat) (v : List α),
      changeCombinationFrom (a + b) i v
        = changeCombinationFrom b (i + a) (changeCombinationFrom a i v) := by
  induction a with
  | zero => intro i v; simp [changeCombinationFrom]
  | succ a ih =>
    intro i v
    have e : a + 1 + b = (a + b) + 1 := by omega
    rw [e]
    simp only [changeCombinationFrom]
    rw [ih]
    congr 1
    omega

theorem changeCombinationFrom_shift {α : Type} (k : Nat) :
    ∀ (i : Nat) (v : List α), v.length = 8 →
      changeCombinationFrom k (i + 56) v = changeCombinationFrom k i v := by
  induction k with
  | zero => intro i v _; rfl
  | succ k ih =>
    intro i v hv
    simp only [changeCombinationFrom]
    have e1 : (i + 56) % v.length = i % v.length := by rw [hv]; omega
    have e2 : (i + 56 + 1) % v.length = (i + 1) % v.length := by rw [hv]; omega
    have e3 : i + 56 + 1 = (i + 1) + 56 := by omega
    rw [e1, e2, e3]
    exact ih (i + 1) _ (by rw [iterSwap_length]; exact hv)

theorem movesFor_add_period (n : Nat) : movesFor (56 + n) = movesFor n := by
  unfold movesFor changeCombination
  rw [changeCombinationFrom_add]
  have h56 : changeCombinationFrom 56 0 canonicalMoves = canonicalMoves := by
    set_option maxRecDepth 100000 in decide
  rw [h56]
  simpa using changeCombinationFrom_shift n 0 canonicalMoves (by decide)

theorem movesFor_mod (n : Nat) : movesFor n = movesFor (n % 56) := by
  induction n using Nat.strong_induction_on with
  | _ n ih =>
    by_cases h : n < 56
    · rw [Nat.mod_eq_of_lt h]
    · have e : n = 56 + (n - 56) := by omega
      rw [e, movesFor_add_period, ih (n - 56) (by omega)]
      congr 1
      omega

theorem movesFor_perm (n : Nat) : List.Perm (movesFor n) canonicalMoves :=
  changeCombinationFrom_perm n 0 canonicalMoves

theorem movesFor_length (n : Nat) : (movesFor n).length = 8 :=
  (movesFor_perm n).length_eq

set_option maxRecDepth 100000 in
/-- C6: for every index `n`, `changeCombination(n)` applied to the eight canonical
offsets returns a vector of length eight that is a permutation of them, each
offset occurring exactly once, and index `0` leaves the canonical order. -/
theorem changeCombination_canonical_perm (n : Nat) :
    (changeCombination canonicalMoves n).length = 8 ∧
    List.Perm (changeCombination canonicalMoves n) canonicalMoves ∧
    (∀ m ∈ canonicalMoves, (changeCombination canonicalMoves n).count m = 1) ∧
    changeCombination canonicalMoves 0 = canonicalMoves := by
  refine ⟨movesFor_length n, movesFor_perm n, ?_, rfl⟩
  intro m hm
  have h : (changeCombination canonicalMoves n).count m = canonicalMoves.count m :=
    (movesFor_perm n).count_eq m
  rw [h]
  clear h
  revert m
  decide

/-- C7: the encoder is not a bijection from `[0, 8!)` onto the orderings of the
eight offsets: two distinct indices below `8!` (namely `0` and `56`) give the same
ordering, and some ordering of the canonical offsets (the one exchanging the first
with the second and the third with the fourth) is produced by no index below
`8!`. -/
theorem changeCombination_not_bijective :
    (∃ a b, a < Nat.factorial 8 ∧ b < Nat.factorial 8 ∧ a ≠ b ∧
      changeCombination canonicalMoves a = changeCombination canonicalMoves b) ∧
    (∃ o : List Vec2i, List.Perm o canonicalMoves ∧
      ∀ n, n < Nat.factorial 8 → changeCombination canonicalMoves n ≠ o) := by
  refine ⟨⟨0, 56, by decide, by decide, by decide, by
    set_option maxRecDepth 100000 in decide⟩, ?_⟩
  refine ⟨[⟨-1, 2⟩, ⟨-2, 1⟩, ⟨2, 1⟩, ⟨1, 2⟩, ⟨2, -1⟩, ⟨1, -2⟩, ⟨-1, -2⟩, ⟨-2, -1⟩],
    by decide, ?_⟩
  intro n _
  have h := movesFor_mod n
  unfold movesFor at h
  rw [h]
  have hk : n % 56 < 56 := Nat.mod_lt _ (by decide)
  revert hk
  generalize n % 56 = k
  revert k
  set_option maxRecDepth 100000 in decide

/-! ## Lemmas on the best-score update -/

theorem applyReports_append (b : BestScore) (p q : List Report) :
    applyReports b (p ++ q) = applyReports (applyReports b p) q := by
  simp [applyReports, List.foldl_append]

theorem updateBest_tries_le (b : BestScore) (r : Report) :
    (updateBest b r).tries ≤ b.tries := by
  unfold updateBest
  split_ifs with h1 h2
  · exact Nat.le_of_lt h2
  · exact Nat.le_refl _
  · exact Nat.le_refl _

theorem applyReports_tries_le (rs : List Report) :
    ∀ b : BestScore, (applyReports b rs).tries ≤ b.tries := by
  induction rs with
  | nil => intro b; exact Nat.le_refl _
  | cons r rs ih =>
    intro b
    exact Nat.le_trans (ih (updateBest b r)) (updateBest_tries_le b r)

/-- After a sequence of reports the record is either untouched, no successful
report lying strictly below it, or it holds the tries and index of the earliest
successful report with the least tries. -/
theorem applyReports_spec (rs : List Report) :
    ∀ b : BestScore,
      ((¬ ∃ r ∈ rs, r.found = true ∧ r.tries < b.tries) ∧ applyReports b rs = b) ∨
      (∃ p r q, rs = p ++ r :: q ∧ r.found = true ∧ r.tries < b.tries ∧
        (∀ s ∈ rs, s.found = true → r.tries ≤ s.tries) ∧
        (∀ s ∈ p, ¬ (s.found = true ∧ s.tries = r.tries)) ∧
        applyReports b rs = ⟨r.tries, r.combIdx⟩) := by
  induction rs with
  | nil => intro b; left; simp [applyReports]
  | cons r0 rs ih =>
    intro b
    by_cases h0 : r0.found = true ∧ r0.tries < b.tries
    · have hb : updateBest b r0 = ⟨r0.tries, r0.combIdx⟩ := by
        unfold updateBest
        rw [if_pos ⟨h0.1, Nat.le_of_lt h0.2⟩, if_pos h0.2]
      have hstep : applyReports b (r0 :: rs) = applyReports ⟨r0.tries, r0.combIdx⟩ rs := by
        simp [applyReports, hb]
      right
      rcases ih ⟨r0.tries, r0.combIdx⟩ with ⟨hno, heq⟩ | ⟨p, r, q, hrs, hf, hlt, hmin, hfirst, heq⟩
      · refine ⟨[], r0, rs, rfl, h0.1, h0.2, ?_, by simp, by rw [hstep, heq]⟩
        intro s hs hsf
        rcases List.mem_cons.mp hs with rfl | hs
        · exact Nat.le_refl _
        · by_contra hc
          exact hno ⟨s, hs, hsf, Nat.lt_of_not_le hc⟩
      · simp only at hlt
        refine ⟨r0 :: p, r, q, by simp [hrs], hf, Nat.lt_trans hlt h0.2, ?_, ?_,
          by rw [hstep, heq]⟩
        · intro s hs hsf
          rcases List.mem_cons.mp hs with rfl | hs
          · exact Nat.le_of_lt hlt
          · exact hmin s hs hsf
        · intro s hs
          rcases List.mem_cons.mp hs with rfl | hs
          · intro hc
            omega
          · exact hfirst s hs
    · have hb : updateBest b r0 = b := by
        unfold updateBest
        split_ifs with h1 h2
        · exact absurd ⟨h1.1, h2⟩ h0
        · rfl
        · rfl
      have hstep : applyReports b (r0 :: rs) = applyReports b rs := by
        simp [applyReports, hb]
      rcases ih b with ⟨hno, heq⟩ | ⟨p, r, q, hrs, hf, hlt, hmin, hfirst, heq⟩
      · left
        refine ⟨?_, by rw [hstep, heq]⟩
        rintro ⟨s, hs, hsf, hslt⟩
        rcases List.mem_cons.mp hs with rfl | hs
        · exact h0 ⟨hsf, hslt⟩
        · exact hno ⟨s, hs, hsf, hslt⟩
      · right
        refine ⟨r0 :: p, r, q, by simp [hrs], hf, hlt, ?_, ?_, by rw [hstep, heq]⟩
        · intro s hs hsf
          rcases List.mem_cons.mp hs with rfl | hs
          · by_contra hc
            exact h0 ⟨hsf, by omega⟩
          · exact hmin s hs hsf
        · intro s hs
          rcases List.mem_cons.mp hs with rfl | hs
          · intro hc
            exact h0 ⟨hc.1, by omega⟩
          · exact hfirst s hs

/-- C4: for every sequence of reports (with `uint64_t` tries) applied to a freshly
reset tracker, the recorded tries never increases from one prefix of the sequence
to a longer one, and after the whole sequence it is the sentinel `UINT64_MAX` when
no report has `found = true` and otherwise the least tries among the reports with
`found = true`. -/
theorem best_tries_nonincreasing_and_minimum (rs : List Report)
    (hbound : ∀ r ∈ rs, r.tries ≤ UINT64_MAX) :
    (∀ p q t, rs = p ++ q ++ t →
      (applyReports BestScore.reset (p ++ q)).tries
        ≤ (applyReports BestScore.reset p).tries) ∧
    ((∀ r ∈ rs, r.found = false) →
      (applyReports BestScore.reset rs).tries = UINT64_MAX) ∧
    ((∃ r ∈ rs, r.found = true) →
      (∃ r ∈ rs, r.found = true ∧ r.tries = (applyReports BestScore.reset rs).tries) ∧
      (∀ r ∈ rs, r.found = true → (applyReports BestScore.reset rs).tries ≤ r.tries)) := by
  refine ⟨?_, ?_, ?_⟩
  · intro p q t _
    rw [applyReports_append]
    exact applyReports_tries_le q _
  · intro hnone
    rcases applyReports_spec rs BestScore.reset with ⟨_, heq⟩ | ⟨p, r, q, hrs, hf, _⟩
    · rw [heq]; rfl
    · have hr : r ∈ rs := by rw [hrs]; simp
      rw [hnone r hr] at hf
      exact absurd hf (by decide)
  · rintro ⟨r1, hr1, hf1⟩
    rcases applyReports_spec rs BestScore.reset with ⟨hno, heq⟩ | ⟨p, r, q, hrs, hf, _, hmin, _, heq⟩
    · have hall : ∀ s ∈ rs, s.found = true → s.tries = UINT64_MAX := by
        intro s hs hsf
        have h1 := hbound s hs
        have h2 : ¬ s.tries < UINT64_MAX := fun hc => hno ⟨s, hs, hsf, hc⟩
        omega
      rw [heq]
      refine ⟨⟨r1, hr1, hf1, hall r1 hr1 hf1⟩, ?_⟩
      intro s hs hsf
      rw [hall s hs hsf]
      exact Nat.le_refl _
    · rw [heq]
      exact ⟨⟨r, by rw [hrs]; simp, hf, rfl⟩, hmin⟩

theorem best_tries_nonincreasing_and_minimum_witness :
    (∀ r ∈ [Report.mk true 7 1, Report.mk false 2 3, Report.mk true 5 2],
      r.tries ≤ UINT64_MAX) ∧
    (applyReports BestScore.reset
      [Report.mk true 7 1, Report.mk false 2 3, Report.mk true 5 2]).tries = 5 ∧
    ((∃ r ∈ [Report.mk true 7 1, Report.mk false 2 3, Report.mk true 5 2], r.found = true) →
      (∃ r ∈ [Report.mk true 7 1, Report.mk false 2 3, Report.mk true 5 2],
        r.found = true ∧ r.tries = (applyReports BestScore.reset
          [Report.mk true 7 1, Report.mk false 2 3, Report.mk true 5 2]).tries) ∧
      (∀ r ∈ [Report.mk true 7 1, Report.mk false 2 3, Report.mk true 5 2],
        r.found = true → (applyReports BestScore.reset
          [Report.mk true 7 1, Report.mk false 2 3, Report.mk true 5 2]).tries ≤ r.tries)) :=
  ⟨by decide, by decide,
    (best_tries_nonincreasing_and_minimum
      [Report.mk true 7 1, Report.mk false 2 3, Report.mk true 5 2] (by decide)).2.2⟩

/-- C5: a report with `found = true` whose tries equals the recorded tries leaves
the recorded index unchanged; and after any sequence of reports applied to a
freshly reset tracker in which some `found = true` report has tries below the
sentinel, the recorded index is that of the earliest report having `found = true`
and the least tries. -/
theorem tie_keeps_first_index :
    (∀ (b : BestScore) (r : Report), r.found = true → r.tries = b.tries →
      (updateBest b r).combIdx = b.combIdx) ∧
    (∀ rs : List Report, (∃ r ∈ rs, r.found = true ∧ r.tries < UINT64_MAX) →
      ∃ p r q, rs = p ++ r :: q ∧ r.found = true ∧
        (∀ s ∈ rs, s.found = true → r.tries ≤ s.tries) ∧
        (∀ s ∈ p, ¬ (s.found = true ∧ s.tries = r.tries)) ∧
        (applyReports BestScore.reset rs).combIdx = r.combIdx) := by
  constructor
  · intro b r _ ht
    unfold updateBest
    split_ifs with h1 h2
    · omega
    · rfl
    · rfl
  · intro rs hex
    rcases applyReports_spec rs BestScore.reset with ⟨hno, _⟩ | ⟨p, r, q, hrs, hf, _, hmin, hfirst, heq⟩
    · exact absurd hex hno
    · exact ⟨p, r, q, hrs, hf, hmin, hfirst, by rw [heq]⟩

theorem tie_keeps_first_index_witness :
    (updateBest ⟨5, 2⟩ ⟨true, 5, 9⟩).combIdx = 2 ∧
    (applyReports BestScore.reset
      [Report.mk true 7 1, Report.mk true 5 2, Report.mk true 5 9]).combIdx = 2 ∧
    ∃ p r q, [Report.mk true 7 1, Report.mk true 5 2, Report.mk true 5 9] = p ++ r :: q ∧
      r.found = true ∧
      (∀ s ∈ [Report.mk true 7 1, Report.mk true 5 2, Report.mk true 5 9],
        s.found = true → r.tries ≤ s.tries) ∧
      (∀ s ∈ p, ¬ (s.found = true ∧ s.tries = r.tries)) ∧
      (applyReports BestScore.reset
        [Report.mk true 7 1, Report.mk true 5 2, Report.mk true 5 9]).combIdx = r.combIdx :=
  ⟨tie_keeps_first_index.1 ⟨5, 2⟩ ⟨true, 5, 9⟩ rfl rfl, by decide,
    tie_keeps_first_index.2 [Report.mk true 7 1, Report.mk true 5 2, Report.mk true 5 9]
      ⟨Report.mk true 7 1, by decide, by decide⟩⟩

/-! ## Lemmas on the board -/

theorem emptyBoard_wf (n : Nat) : Board.WF n (emptyBoard n) := by
  unfold Board.WF emptyBoard
  refine ⟨by simp, ?_⟩
  intro row hrow
  rw [List.eq_of_mem_replicate hrow]
  simp

theorem emptyBoard_get (n x y : Nat) : (emptyBoard n).get x y = 0 := by
  unfold Board.get emptyBoard
  simp only [List.getD_eq_getElem?_getD, List.getElem?_replicate]
  by_cases hx : x < n
  · simp only [hx, if_true, Option.getD_some, List.getElem?_replicate]
    by_cases hy : y < n <;> simp [hy]
  · simp [hx]

theorem Board.set_wf {n : Nat} {b : Board} (h : Board.WF n b) (x y v : Nat) :
    Board.WF n (b.set x y v) := by
  unfold Board.WF Board.set at *
  refine ⟨by simp [h.1], ?_⟩
  intro row hrow
  by_cases hx : x < b.length
  · rcases List.mem_or_eq_of_mem_set hrow with h1 | h1
    · exact h.2 row h1
    · rw [h1, List.length_set, List.getD_eq_getElem _ _ hx]
      exact h.2 _ (List.getElem_mem _)
  · rw [List.set_eq_of_length_le (by omega)] at hrow
    exact h.2 row hrow

theorem Board.get_set {n : Nat} {b : Board} (h : Board.WF n b) {x y : Nat}
    (hx : x < n) (hy : y < n) (v x' y' : Nat) :
    (b.set x y v).get x' y' = if x' = x ∧ y' = y then v else b.get x' y' := by
  have hxl : x < b.length := by rw [h.1]; exact hx
  have hrow : (b.getD x []).length = n := by
    rw [List.getD_eq_getElem _ _ hxl]
    exact h.2 _ (List.getElem_mem _)
  unfold Board.get Board.set
  by_cases h1 : x' = x
  · subst h1
    have e1 : (List.set b x' ((b.getD x' []).set y v)).getD x' [] = (b.getD x' []).set y v := by
      rw [List.getD_eq_getElem _ _ (by simpa using hxl)]
      simp
    rw [e1]
    by_cases h2 : y' = y
    · subst h2
      rw [List.getD_eq_getElem _ _ (by rw [List.length_set, hrow]; exact hy)]
      simp
    · simp only [h2, and_false, if_false]
      simp only [List.getD_eq_getElem?_getD]
      rw [List.getElem?_set_ne (Ne.symm h2)]
  · simp only [h1, false_and, if_false]
    simp only [List.getD_eq_getElem?_getD]
    rw [List.getElem?_set_ne (Ne.symm h1)]

/-! ## Lemmas on the inner loop -/

theorem scanMoves_budget (n maxTries : Nat) (moves : List Vec2i) (b : Board) (e : StackEntry) :
    ∀ (k i t t' : Nat), scanMoves n maxTries moves b e k i t = Scan.budget t' →
      t < t' ∧ maxTries ≤ t' ∧ (t < maxTries → t' = maxTries) := by
  intro k
  induction k with
  | zero => intro i t t' h; simp [scanMoves] at h
  | succ k ih =>
    intro i t t' h
    simp only [scanMoves] at h
    split_ifs at h with h1 h2
    · injection h with h
      subst h
      exact ⟨Nat.lt_succ_self t, h1, fun _ => by omega⟩
    · have := ih (i + 1) (t + 1) t' h
      exact ⟨by omega, this.2.1, fun _ => this.2.2 (by omega)⟩

theorem scanMoves_advance (n maxTries : Nat) (moves : List Vec2i) (b : Board) (e : StackEntry) :
    ∀ (k i t j x y t' : Nat),
      scanMoves n maxTries moves b e k i t = Scan.advance j x y t' →
      i ≤ j ∧ j < i + k ∧ t < t' ∧ t' < maxTries ∧
      (x, y) = target e (moves.getD j ⟨0, 0⟩) ∧ IS_VALID n b x y = true ∧
      ∀ m, i ≤ m → m < j →
        IS_VALID n b (target e (moves.getD m ⟨0, 0⟩)).1 (target e (moves.getD m ⟨0, 0⟩)).2
          = false := by
  intro k
  induction k with
  | zero => intro i t j x y t' h; simp [scanMoves] at h
  | succ k ih =>
    intro i t j x y t' h
    simp only [scanMoves] at h
    split_ifs at h with h1 h2
    · injection h with hj hx hy ht
      subst hj hx hy ht
      refine ⟨Nat.le_refl _, by omega, by omega, by omega, rfl, h2, ?_⟩
      intro m h3 h4
      omega
    · obtain ⟨a1, a2, a3, a4, a5, a6, a7⟩ := ih (i + 1) (t + 1) j x y t' h
      refine ⟨by omega, by omega, by omega, a4, a5, a6, ?_⟩
      intro m h3 h4
      by_cases hm : m = i
      · subst hm
        simpa [target] using h2
      · exact a7 m (by omega) h4

theorem scanMoves_exhausted (n maxTries : Nat) (moves : List Vec2i) (b : Board) (e : StackEntry) :
    ∀ (k i t t' : Nat), scanMoves n maxTries moves b e k i t = Scan.exhausted t' →
      t' = t + k ∧ (0 < k → t' < maxTries) ∧
      ∀ m, i ≤ m → m < i + k →
        IS_VALID n b (target e (moves.getD m ⟨0, 0⟩)).1 (target e (moves.getD m ⟨0, 0⟩)).2
          = false := by
  intro k
  induction k with
  | zero =>
    intro i t t' h
    simp only [scanMoves] at h
    injection h with h
    subst h
    exact ⟨rfl, fun hk => absurd hk (by decide), fun m h1 h2 => by omega⟩
  | succ k ih =>
    intro i t t' h
    simp only [scanMoves] at h
    split_ifs at h with h1 h2
    obtain ⟨a1, a2, a3⟩ := ih (i + 1) (t + 1) t' h
    refine ⟨by omega, fun _ => ?_, ?_⟩
    · by_cases hk : 0 < k
      · exact a2 hk
      · have : k = 0 := by omega
        subst this
        omega
    · intro m h3 h4
      by_cases hm : m = i
      · subst hm
        simpa [target] using h2
      · exact a3 m (by omega) (by omega)

/-! ## Lemmas on the main loop -/

theorem loopBody_budget {n maxTries : Nat} {moves : List Vec2i} {b : Board} {e : StackEntry}
    {rest : List StackEntry} {t : Nat} {st : State}
    (h : loopBody n maxTries moves b e rest t = Step.budget st) :
    ∃ t', scanMoves n maxTries moves b e (MOVES_COUNT - e.nextMoveIdx) e.nextMoveIdx t
        = Scan.budget t' ∧ st = ⟨b, e :: rest, t'⟩ := by
  unfold loopBody at h
  split at h
  · rename_i t' hs
    injection h with h
    exact ⟨t', hs, h.symm⟩
  · exact absurd h (by simp)
  · exact absurd h (by simp)

theorem loopBody_next {n maxTries : Nat} {moves : List Vec2i} {b : Board} {e : StackEntry}
    {rest : List StackEntry} {t : Nat} {st : State}
    (h : loopBody n maxTries moves b e rest t = Step.next st) :
    (∃ j x y t', scanMoves n maxTries moves b e (MOVES_COUNT - e.nextMoveIdx) e.nextMoveIdx t
        = Scan.advance j x y t' ∧
      st = ⟨b.set x y (rest.length + 2), ⟨x, y, 0⟩ :: ⟨e.x, e.y, j + 1⟩ :: rest, t'⟩) ∨
    (∃ t', scanMoves n maxTries moves b e (MOVES_COUNT - e.nextMoveIdx) e.nextMoveIdx t
        = Scan.exhausted t' ∧ st = ⟨b.set e.x e.y 0, rest, t'⟩) := by
  unfold loopBody at h
  split at h
  · exact absurd h (by simp)
  · rename_i j x y t' hs
    injection h with h
    exact Or.inl ⟨j, x, y, t', hs, h.symm⟩
  · rename_i t' hs
    injection h with h
    exact Or.inr ⟨t', hs, h.symm⟩

/-- A property kept by every pass through the body holds when the loop is left
by its condition, and then the stack is empty or has reached `n * n` frames. -/
theorem mainLoop_finished {n maxTries : Nat} {moves : List Vec2i} (P : State → Prop)
    (hstep : ∀ b e rest t st, rest.length + 1 < n * n → P ⟨b, e :: rest, t⟩ →
      loopBody n maxTries moves b e rest t = Step.next st → P st) :
    ∀ (fuel : Nat) (st st' : State), P st →
      mainLoop n maxTries moves fuel st = Exit.finished st' →
      P st' ∧ (st'.stack = [] ∨ n * n ≤ st'.stack.length) := by
  intro fuel
  induction fuel with
  | zero =>
    intro st st' hP h
    obtain ⟨b, stack, t⟩ := st
    cases stack with
    | nil =>
      simp only [mainLoop] at h
      injection h with h
      subst h
      exact ⟨hP, Or.inl rfl⟩
    | cons e rest =>
      simp only [mainLoop] at h
      split_ifs at h with hc
      injection h with h
      subst h
      exact ⟨hP, Or.inr (by simp only [List.length_cons]; omega)⟩
  | succ fuel ih =>
    intro st st' hP h
    obtain ⟨b, stack, t⟩ := st
    cases stack with
    | nil =>
      simp only [mainLoop] at h
      injection h with h
      subst h
      exact ⟨hP, Or.inl rfl⟩
    | cons e rest =>
      simp only [mainLoop] at h
      split_ifs at h with hc
      · split at h
        · exact absurd h (by simp)
        · rename_i st1 hb
          exact ih st1 st' (hstep b e rest t st1 hc hP hb) h
      · injection h with h
        subst h
        exact ⟨hP, Or.inr (by simp only [List.length_cons]; omega)⟩

/-- When the loop is left by the `return` in its body, the pass that returned
started from a state with the kept property in which the loop condition held. -/
theorem mainLoop_budget {n maxTries : Nat} {moves : List Vec2i} (P : State → Prop)
    (hstep : ∀ b e rest t st, rest.length + 1 < n * n → P ⟨b, e :: rest, t⟩ →
      loopBody n maxTries moves b e rest t = Step.next st → P st) :
    ∀ (fuel : Nat) (st st' : State), P st →
      mainLoop n maxTries moves fuel st = Exit.budget st' →
      ∃ b e rest t, P ⟨b, e :: rest, t⟩ ∧ rest.length + 1 < n * n ∧
        loopBody n maxTries moves b e rest t = Step.budget st' := by
  intro fuel
  induction fuel with
  | zero =>
    intro st st' hP h
    obtain ⟨b, stack, t⟩ := st
    cases stack with
    | nil => simp [mainLoop] at h
    | cons e rest =>
      simp only [mainLoop] at h
      split_ifs at h
  | succ fuel ih =>
    intro st st' hP h
    obtain ⟨b, stack, t⟩ := st
    cases stack with
    | nil => simp [mainLoop] at h
    | cons e rest =>
      simp only [mainLoop] at h
      split_ifs at h with hc
      split at h
      · rename_i st1 hb
        injection h with h
        subst h
        exact ⟨b, e, rest, t, hP, hc, hb⟩
      · rename_i st1 hb
        exact ih st1 st' (hstep b e rest t st1 hc hP hb) h

/-- Every pass through the body that does not return lowers
`2 * (maxTries - tries) + STACK_SIZE()`. -/
theorem loopBody_measure {n maxTries : Nat} {moves : List Vec2i} {b : Board} {e : StackEntry}
    {rest : List StackEntry} {t : Nat} {st : State}
    (h : loopBody n maxTries moves b e rest t = Step.next st) :
    2 * (maxTries - st.tries) + st.stack.length
      < 2 * (maxTries - t) + (rest.length + 1) := by
  rcases loopBody_next h with ⟨j, x, y, t', hs, rfl⟩ | ⟨t', hs, rfl⟩
  · obtain ⟨_, _, a3, a4, _⟩ := scanMoves_advance _ _ _ _ _ _ _ _ _ _ _ _ hs
    simp only [List.length_cons]
    omega
  · obtain ⟨a1, a2, _⟩ := scanMoves_exhausted _ _ _ _ _ _ _ _ _ hs
    simp only
    by_cases hk : 0 < MOVES_COUNT - e.nextMoveIdx
    · have := a2 hk
      omega
    · omega

theorem mainLoop_terminates (n maxTries : Nat) (moves : List Vec2i) :
    ∀ (fuel : Nat) (st : State),
      2 * (maxTries - st.tries) + st.stack.length < fuel →
      mainLoop n maxTries moves fuel st ≠ Exit.outOfFuel := by
  intro fuel
  induction fuel with
  | zero => intro st h; omega
  | succ fuel ih =>
    intro st hlt
    obtain ⟨b, stack, t⟩ := st
    cases stack with
    | nil => simp [mainLoop]
    | cons e rest =>
      simp only [mainLoop]
      split_ifs with hc
      · split
        · simp
        · rename_i st1 hb
          have hm := loopBody_measure hb
          simp only [List.length_cons] at hlt
          exact ih st1 (by omega)
      · simp

theorem IS_VALID_emptyBoard (n x y : Nat) :
    IS_VALID n (emptyBoard n) x y = true ↔ x < n ∧ y < n := by
  unfold IS_VALID
  simp [emptyBoard_get]

theorem knightTourIExit_eq {n x y : Nat} (maxTries combIdx : Nat) (hx : x < n) (hy : y < n) :
    knightTourIExit n maxTries x y combIdx
      = some (mainLoop n maxTries (movesFor combIdx) (searchFuel maxTries) (initState n x y)) := by
  unfold knightTourIExit
  rw [if_pos ((IS_VALID_emptyBoard n x y).mpr ⟨hx, hy⟩)]

theorem initState_measure (n maxTries x y : Nat) :
    2 * (maxTries - (initState n x y).tries) + (initState n x y).stack.length
      < searchFuel maxTries := by
  simp only [initState, searchFuel, List.length_cons, List.length_nil]
  omega

theorem Counted_init {n maxTries x : Nat} (hmax : 0 < maxTries) (hx : x < n) (y : Nat) :
    Counted n maxTries (initState n x y) := by
  refine ⟨hmax, by simp [initState], ?_⟩
  simp only [initState, List.length_cons, List.length_nil]
  have : 0 < n := by omega
  exact Nat.mul_pos this this

theorem Counted_step {n maxTries : Nat} {moves : List Vec2i} (b : Board) (e : StackEntry)
    (rest : List StackEntry) (t : Nat) (st : State) (hc : rest.length + 1 < n * n)
    (hP : Counted n maxTries ⟨b, e :: rest, t⟩)
    (h : loopBody n maxTries moves b e rest t = Step.next st) : Counted n maxTries st := by
  obtain ⟨c1, c2, c3⟩ := hP
  simp only [List.length_cons] at c2 c3
  have c1 : t < maxTries := c1
  have c2 : rest.length + 1 ≤ t + 1 := c2
  rcases loopBody_next h with ⟨j, x, y, t', hs, rfl⟩ | ⟨t', hs, rfl⟩
  · obtain ⟨_, _, a3, a4, _⟩ := scanMoves_advance _ _ _ _ _ _ _ _ _ _ _ _ hs
    refine ⟨a4, ?_, ?_⟩
    · simp only [List.length_cons]; omega
    · simp only [List.length_cons]; omega
  · obtain ⟨a1, a2, _⟩ := scanMoves_exhausted _ _ _ _ _ _ _ _ _ hs
    refine ⟨?_, ?_, ?_⟩
    · simp only
      by_cases hk : 0 < MOVES_COUNT - e.nextMoveIdx
      · exact a2 hk
      · omega
    · simp only; omega
    · simp only; omega

/-- From an in-range start the loop is left either by its condition, in a state
with the kept property `P` whose stack is empty or full, or by the budget
`return`, with `tries = maxTries` on a stack that is neither. -/
theorem search_exit {n maxTries x y : Nat} (combIdx : Nat) (P : State → Prop)
    (hstep : ∀ b e rest t st, rest.length + 1 < n * n → P ⟨b, e :: rest, t⟩ →
      loopBody n maxTries (movesFor combIdx) b e rest t = Step.next st → P st)
    (hinit : P (initState n x y)) (hmax : 0 < maxTries) (hx : x < n) :
    (∃ st, mainLoop n maxTries (movesFor combIdx) (searchFuel maxTries) (initState n x y)
        = Exit.finished st ∧ P st ∧ st.tries < maxTries ∧ st.stack.length ≤ st.tries + 1 ∧
        (st.stack = [] ∨ st.stack.length = n * n)) ∨
    (∃ st, mainLoop n maxTries (movesFor combIdx) (searchFuel maxTries) (initState n x y)
        = Exit.budget st ∧ st.tries = maxTries ∧ st.stack ≠ [] ∧ st.stack.length < n * n) := by
  have hstep2 : ∀ b e rest t st, rest.length + 1 < n * n →
      (P ⟨b, e :: rest, t⟩ ∧ Counted n maxTries ⟨b, e :: rest, t⟩) →
      loopBody n maxTries (movesFor combIdx) b e rest t = Step.next st →
      (P st ∧ Counted n maxTries st) :=
    fun b e rest t st hc hP h =>
      ⟨hstep b e rest t st hc hP.1 h, Counted_step b e rest t st hc hP.2 h⟩
  have hinit2 : P (initState n x y) ∧ Counted n maxTries (initState n x y) :=
    ⟨hinit, Counted_init hmax hx y⟩
  have hterm := mainLoop_terminates n maxTries (movesFor combIdx) (searchFuel maxTries)
    (initState n x y) (initState_measure n maxTries x y)
  cases hex : mainLoop n maxTries (movesFor combIdx) (searchFuel maxTries) (initState n x y) with
  | budget st =>
    right
    obtain ⟨b, e, rest, t, hP, hc, hb⟩ :=
      mainLoop_budget (fun s => P s ∧ Counted n maxTries s) hstep2 _ _ st hinit2 hex
    obtain ⟨t', hs, rfl⟩ := loopBody_budget hb
    obtain ⟨_, _, a3⟩ := scanMoves_budget _ _ _ _ _ _ _ _ _ hs
    exact ⟨_, rfl, a3 hP.2.1, by simp, by simpa using hc⟩
  | finished st =>
    left
    obtain ⟨hP, hstop⟩ :=
      mainLoop_finished (fun s => P s ∧ Counted n maxTries s) hstep2 _ _ st hinit2 hex
    refine ⟨st, rfl, hP.1, hP.2.1, hP.2.2.1, ?_⟩
    rcases hstop with h | h
    · exact Or.inl h
    · exact Or.inr (Nat.le_antisymm hP.2.2.2 h)
  | outOfFuel => exact absurd hex hterm

/-- C3: from an in-range start with a positive budget, the returned tries is at
most the budget; it equals the budget exactly when the search left by the budget
`return`, and then `found` is false; and when `found` is true,
`n * n - 1 ≤ tries < maxTries`. -/
theorem tries_within_budget (n maxTries x y combIdx : Nat) (hmax : 0 < maxTries)
    (hx : x < n) (hy : y < n) :
    ∃ ex found tries, knightTourIExit n maxTries x y combIdx = some ex ∧
      knightTourI n maxTries x y combIdx = Outcome.returned found tries ∧
      tries ≤ maxTries ∧
      (tries = maxTries ↔ ∃ st, ex = Exit.budget st) ∧
      ((∃ st, ex = Exit.budget st) → found = false) ∧
      (found = true → n * n - 1 ≤ tries ∧ tries < maxTries) := by
  have hex := knightTourIExit_eq maxTries combIdx hx hy
  rcases search_exit combIdx (fun _ => True) (fun _ _ _ _ _ _ _ _ => trivial) trivial hmax hx
    with ⟨st, hst, _, h1, h2, h3⟩ | ⟨st, hst, h1, h2, h3⟩
  · refine ⟨Exit.finished st, !st.stack.isEmpty, st.tries, by rw [hex, hst], ?_,
      Nat.le_of_lt h1, ?_, ?_, ?_⟩
    · simp [knightTourI, hex, hst, Exit.result]
    · constructor
      · intro h; omega
      · rintro ⟨s, hs⟩; exact absurd hs (by simp)
    · rintro ⟨s, hs⟩; exact absurd hs (by simp)
    · intro hf
      refine ⟨?_, h1⟩
      rcases h3 with h | h
      · rw [h] at hf; simp at hf
      · omega
  · refine ⟨Exit.budget st, false, st.tries, by rw [hex, hst], ?_, Nat.le_of_eq h1, ?_, ?_, ?_⟩
    · simp [knightTourI, hex, hst, Exit.result]
    · exact ⟨fun _ => ⟨st, rfl⟩, fun _ => h1⟩
    · intro _; rfl
    · intro hf; exact absurd hf (by decide)

set_option maxRecDepth 100000 in
theorem tries_within_budget_witness :
    0 < 1000 ∧ 0 < 5 ∧
    knightTourI 5 1000 0 0 0 = Outcome.returned true 236 ∧
    knightTourI 5 200 0 0 0 = Outcome.returned false 200 ∧
    ∃ ex found tries, knightTourIExit 5 1000 0 0 0 = some ex ∧
      knightTourI 5 1000 0 0 0 = Outcome.returned found tries ∧
      tries ≤ 1000 ∧
      (tries = 1000 ↔ ∃ st, ex = Exit.budget st) ∧
      ((∃ st, ex = Exit.budget st) → found = false) ∧
      (found = true → 5 * 5 - 1 ≤ tries ∧ tries < 1000) :=
  ⟨by decide, by decide, by decide, by decide,
    tries_within_budget 5 1000 0 0 0 (by decide) (by decide) (by decide)⟩

/-- C8: `knightTourI` stops on its assertion exactly when the start cell is off
the board; the fresh board is all zero, so for a start cell on the board the
assertion holds and the call returns a pair `(found, tries)`. -/
theorem assertion_iff_off_board (n maxTries x y combIdx : Nat) :
    (knightTourI n maxTries x y combIdx = Outcome.assertionFailed ↔ (n ≤ x ∨ n ≤ y)) ∧
    (∀ a b, (emptyBoard n).get a b = 0) ∧
    (x < n → y < n →
      IS_VALID n (emptyBoard n) x y = true ∧
      ∃ found tries, knightTourI n maxTries x y combIdx = Outcome.returned found tries) := by
  have hret : x < n → y < n →
      ∃ found tries, knightTourI n maxTries x y combIdx = Outcome.returned found tries := by
    intro hx hy
    have hex := knightTourIExit_eq maxTries combIdx hx hy
    have hterm := mainLoop_terminates n maxTries (movesFor combIdx) (searchFuel maxTries)
      (initState n x y) (initState_measure n maxTries x y)
    cases hm : mainLoop n maxTries (movesFor combIdx) (searchFuel maxTries) (initState n x y) with
    | budget st => exact ⟨false, st.tries, by simp [knightTourI, hex, hm, Exit.result]⟩
    | finished st =>
      exact ⟨!st.stack.isEmpty, st.tries, by simp [knightTourI, hex, hm, Exit.result]⟩
    | outOfFuel => exact absurd hm hterm
  refine ⟨⟨?_, ?_⟩, emptyBoard_get n, fun hx hy =>
    ⟨(IS_VALID_emptyBoard n x y).mpr ⟨hx, hy⟩, hret hx hy⟩⟩
  · intro h
    by_contra hc
    obtain ⟨f, t, hft⟩ := hret (by omega) (by omega)
    rw [hft] at h
    exact absurd h (by simp)
  · intro h
    have hv : ¬ IS_VALID n (emptyBoard n) x y = true := by
      rw [IS_VALID_emptyBoard]; omega
    simp [knightTourI, knightTourIExit, hv]

theorem assertion_iff_off_board_witness :
    knightTourI 8 1000 8 0 0 = Outcome.assertionFailed ∧
    knightTourI 8 1000 0 4294967295 0 = Outcome.assertionFailed ∧
    IS_VALID 8 (emptyBoard 8) 0 7 = true ∧
    ∃ found tries, knightTourI 8 1000 0 7 13 = Outcome.returned found tries :=
  ⟨(assertion_iff_off_board 8 1000 8 0 0).1.mpr (Or.inl (by decide)),
   (assertion_iff_off_board 8 1000 0 4294967295 0).1.mpr (Or.inr (by decide)),
   ((assertion_iff_off_board 8 1000 0 7 13).2.2 (by decide) (by decide)).1,
   ((assertion_iff_off_board 8 1000 0 7 13).2.2 (by decide) (by decide)).2⟩

/-- C9: from an in-range start with a positive budget the main loop terminates,
and its final state is in exactly one of three conditions: solved (the stack
holds `n * n` frames), dead (the stack is empty) or budget-exceeded (`tries` has
reached the budget); the first two leave by the loop condition, the third by the
`return` in the body. -/
theorem main_loop_terminal_state (n maxTries x y combIdx : Nat) (hmax : 0 < maxTries)
    (hx : x < n) (hy : y < n) :
    ∃ ex st, knightTourIExit n maxTries x y combIdx = some ex ∧
      ((ex = Exit.finished st ∧
          st.stack.length = n * n ∧ st.stack ≠ [] ∧ st.tries ≠ maxTries) ∨
       (ex = Exit.finished st ∧
          st.stack = [] ∧ st.stack.length ≠ n * n ∧ st.tries ≠ maxTries) ∨
       (ex = Exit.budget st ∧
          st.tries = maxTries ∧ st.stack ≠ [] ∧ st.stack.length ≠ n * n)) := by
  have hex := knightTourIExit_eq maxTries combIdx hx hy
  have hnn : 0 < n * n := Nat.mul_pos (by omega) (by omega)
  rcases search_exit combIdx (fun _ => True) (fun _ _ _ _ _ _ _ _ => trivial) trivial hmax hx
    with ⟨st, hst, _, h1, h2, h3⟩ | ⟨st, hst, h1, h2, h3⟩
  · refine ⟨Exit.finished st, st, by rw [hex, hst], ?_⟩
    rcases h3 with h | h
    · right; left
      refine ⟨rfl, h, ?_, by omega⟩
      rw [h]; simp; omega
    · left
      refine ⟨rfl, h, ?_, by omega⟩
      intro hnil
      rw [hnil] at h
      simp at h
      omega
  · exact ⟨Exit.budget st, st, by rw [hex, hst], Or.inr (Or.inr ⟨rfl, h1, h2, by omega⟩)⟩

set_option maxRecDepth 100000 in
theorem main_loop_terminal_state_witness :
    0 < 1000 ∧ 0 < 3 ∧
    knightTourI 3 1000 0 0 0 = Outcome.returned false 120 ∧
    ∃ ex st, knightTourIExit 3 1000 0 0 0 = some ex ∧
      ((ex = Exit.finished st ∧
          st.stack.length = 3 * 3 ∧ st.stack ≠ [] ∧ st.tries ≠ 1000) ∨
       (ex = Exit.finished st ∧
          st.stack = [] ∧ st.stack.length ≠ 3 * 3 ∧ st.tries ≠ 1000) ∨
       (ex = Exit.budget st ∧
          st.tries = 1000 ∧ st.stack ≠ [] ∧ st.stack.length ≠ 3 * 3)) :=
  ⟨by decide, by decide, by decide,
    main_loop_terminal_state 3 1000 0 0 0 (by decide) (by decide) (by decide)⟩

/-! ## The dispatch loop -/

theorem OrchInv_init : OrchInv orchInit := by
  unfold OrchInv orchInit MAX_THREAD_COUNT
  simp

theorem OrchInv_step (combinations : Nat) (a : Actor) (s t : Orch) (hs : OrchInv s)
    (h : orchStep combinations a s = some t) : OrchInv t := by
  obtain ⟨pc, i, c, r⟩ := s
  unfold OrchInv MAX_THREAD_COUNT at *
  simp only at hs
  cases a with
  | worker =>
    simp only [orchStep] at h
    split_ifs at h with h1
    injection h with h
    subst h
    simp only
    obtain ⟨i1, i2, i3⟩ := hs
    by_cases hl : pc = Pc.launch
    · simp only [hl, if_true] at i1 ⊢
      refine ⟨by omega, by omega, ?_⟩
      intro hc
      rcases hc with hc | hc <;> exact absurd hc (by decide)
    · simp only [hl, if_false] at i1 ⊢
      refine ⟨by omega, by omega, ?_⟩
      intro hc
      have := i3 hc
      omega
  | orchestrator =>
    obtain ⟨i1, i2, i3⟩ := hs
    cases pc with
    | loopHead =>
      simp only [orchStep] at h
      have hlt := i3 (Or.inl rfl)
      simp only [if_neg (show ¬ Pc.loopHead = Pc.launch by decide)] at i1
      split_ifs at h with h1
      · injection h with h
        subst h
        simp only [if_true]
        refine ⟨by omega, by omega, ?_⟩
        intro hc
        rcases hc with hc | hc <;> exact absurd hc (by decide)
      · injection h with h
        subst h
        simp only [if_neg (show ¬ Pc.done = Pc.launch by decide)]
        refine ⟨by omega, by omega, ?_⟩
        intro hc
        rcases hc with hc | hc <;> exact absurd hc (by decide)
    | launch =>
      simp only [orchStep] at h
      simp only [if_true] at i1
      injection h with h
      subst h
      simp only [if_neg (show ¬ Pc.check1 = Pc.launch by decide)]
      refine ⟨by omega, by omega, ?_⟩
      intro hc
      rcases hc with hc | hc <;> exact absurd hc (by decide)
    | check1 =>
      simp only [orchStep] at h
      simp only [if_neg (show ¬ Pc.check1 = Pc.launch by decide)] at i1
      split_ifs at h with h1 h2
      · injection h with h
        subst h
        simp only [if_neg (show ¬ Pc.blocked = Pc.launch by decide)]
        refine ⟨by omega, by omega, ?_⟩
        intro hc
        rcases hc with hc | hc <;> exact absurd hc (by decide)
      · injection h with h
        subst h
        simp only [if_neg (show ¬ Pc.check2 = Pc.launch by decide)]
        refine ⟨by omega, by omega, ?_⟩
        intro _
        have h1 : ¬ c = 8 := h1
        omega
      · injection h with h
        subst h
        simp only [if_neg (show ¬ Pc.loopHead = Pc.launch by decide)]
        refine ⟨by omega, by omega, ?_⟩
        intro _
        have h1 : ¬ c = 8 := h1
        omega
    | check2 =>
      simp only [orchStep] at h
      have hlt := i3 (Or.inr rfl)
      simp only [if_neg (show ¬ Pc.check2 = Pc.launch by decide)] at i1
      split_ifs at h with h1
      · injection h with h
        subst h
        simp only [if_neg (show ¬ Pc.blocked = Pc.launch by decide)]
        refine ⟨by omega, by omega, ?_⟩
        intro hc
        rcases hc with hc | hc <;> exact absurd hc (by decide)
      · injection h with h
        subst h
        simp only [if_neg (show ¬ Pc.loopHead = Pc.launch by decide)]
        exact ⟨by omega, by omega, fun _ => hlt⟩
    | blocked =>
      simp only [orchStep] at h
      simp only [if_neg (show ¬ Pc.blocked = Pc.launch by decide)] at i1
      injection h with h
      subst h
      simp only [if_neg (show ¬ Pc.check1 = Pc.launch by decide)]
      refine ⟨by omega, by omega, ?_⟩
      intro hc
      rcases hc with hc | hc <;> exact absurd hc (by decide)
    | done => simp [orchStep] at h

theorem Reachable_inv (combinations : Nat) (s : Orch) (h : Reachable combinations s) :
    OrchInv s := by
  induction h with
  | init => exact OrchInv_init
  | step a _ hstep ih => exact OrchInv_step combinations a _ _ ih hstep

/-- C10: in every state the dispatch loop of `tryCombinations` can reach under
any interleaving of the orchestrator's steps with the workers' decrements, for
every batch size `combinations` (zero included), the in-flight counter
`currentThreadCount` is at most `MAX_THREAD_COUNT`. -/
theorem in_flight_counter_bounded (combinations : Nat) (s : Orch)
    (h : Reachable combinations s) : s.currentThreadCount ≤ MAX_THREAD_COUNT :=
  (Reachable_inv combinations s h).2.1

theorem in_flight_counter_bounded_witness :
    Reachable 20 ⟨Pc.check1, 0, 1, 1⟩ ∧
    (Orch.mk Pc.check1 0 1 1).currentThreadCount ≤ MAX_THREAD_COUNT :=
  have h1 : Reachable 20 ⟨Pc.launch, 0, 1, 0⟩ :=
    Reachable.step Actor.orchestrator Reachable.init (by decide)
  have hr : Reachable 20 ⟨Pc.check1, 0, 1, 1⟩ :=
    Reachable.step Actor.orchestrator h1 (by decide)
  ⟨hr, in_flight_counter_bounded 20 ⟨Pc.check1, 0, 1, 1⟩ hr⟩

/-! ## The path invariant -/

theorem side_le_of_sq_lt {n : Nat} (hn : n * n < 2 ^ 31) : n ≤ 4294967294 := by
  by_contra hc
  have : 4294967295 * 4294967295 ≤ n * n := Nat.mul_le_mul (by omega) (by omega)
  omega

theorem IS_VALID_true {n : Nat} {b : Board} {x y : Nat} (h : IS_VALID n b x y = true) :
    x < n ∧ y < n ∧ b.get x y = 0 := by
  unfold IS_VALID at h
  simpa using h

theorem IS_VALID_false {n : Nat} {b : Board} {x y : Nat} (h : IS_VALID n b x y = false)
    (hx : x < n) (hy : y < n) : b.get x y ≠ 0 := by
  unfold IS_VALID at h
  intro hc
  simp [hx, hy, hc] at h

theorem movesFor_getD_mem (combIdx j : Nat) (hj : j < MOVES_COUNT) :
    (movesFor combIdx).getD j ⟨0, 0⟩ ∈ canonicalMoves := by
  have hl : j < (movesFor combIdx).length := by rw [movesFor_length]; exact hj
  rw [List.getD_eq_getElem _ _ hl]
  exact (movesFor_perm combIdx).mem_iff.mp (List.getElem_mem _)

/-- A target that passes the bounds test of `IS_VALID` is one knight move from
the frame it was computed from: the unsigned sums did not wrap. -/
theorem target_knightStep {n : Nat} (hn : n * n < 2 ^ 31) (e : StackEntry) (m : Vec2i)
    (hm : m ∈ canonicalMoves) (hex : e.x < n) (hey : e.y < n)
    (hx : (target e m).1 < n) (hy : (target e m).2 < n) :
    KnightStep e.cell (target e m) := by
  have hn' := side_le_of_sq_lt hn
  unfold target addU32 at *
  unfold KnightStep StackEntry.cell
  simp only at hx hy ⊢
  simp only [canonicalMoves, List.mem_cons, List.mem_singleton, List.not_mem_nil, or_false] at hm
  rcases hm with rfl | rfl | rfl | rfl | rfl | rfl | rfl | rfl <;> simp only at hx hy ⊢ <;> omega

theorem PathOK_values {n sx sy : Nat} {b : Board} :
    ∀ {s : List StackEntry}, PathOK n sx sy b s →
      ∀ e ∈ s, 1 ≤ b.get e.x e.y ∧ b.get e.x e.y ≤ s.length ∧ e.x < n ∧ e.y < n := by
  intro s
  induction s with
  | nil => intro _ e he; simp at he
  | cons t rest ih =>
    intro h e he
    obtain ⟨h1, h2, h3, _, h5⟩ := h
    rcases List.mem_cons.mp he with rfl | he
    · exact ⟨by omega, by simp only [List.length_cons]; omega, h1, h2⟩
    · obtain ⟨a1, a2, a3, a4⟩ := ih h5 e he
      exact ⟨a1, by simp only [List.length_cons]; omega, a3, a4⟩

theorem PathOK_congr {n sx sy : Nat} {b b' : Board} :
    ∀ {s : List StackEntry}, (∀ e ∈ s, b'.get e.x e.y = b.get e.x e.y) →
      PathOK n sx sy b s → PathOK n sx sy b' s := by
  intro s
  induction s with
  | nil => intro _ _; trivial
  | cons t rest ih =>
    intro hb h
    obtain ⟨h1, h2, h3, h4, h5⟩ := h
    refine ⟨h1, h2, ?_, h4, ih (fun e he => hb e (List.mem_cons_of_mem _ he)) h5⟩
    rw [hb t (List.mem_cons_self _ _)]
    exact h3

theorem PathOK_start {n sx sy : Nat} {b : Board} :
    ∀ {s : List StackEntry}, PathOK n sx sy b s → s ≠ [] → b.get sx sy = 1 := by
  intro s
  induction s with
  | nil => intro _ h; exact absurd rfl h
  | cons t rest ih =>
    intro h _
    obtain ⟨_, _, h3, h4, h5⟩ := h
    cases rest with
    | nil =>
      obtain ⟨rfl, rfl⟩ := h4
      simpa using h3
    | cons f rest' => exact ih h5 (by simp)

theorem PathOK_exists {n sx sy : Nat} {b : Board} :
    ∀ {s : List StackEntry}, PathOK n sx sy b s →
      ∀ k, 1 ≤ k → k ≤ s.length → ∃ e ∈ s, b.get e.x e.y = k := by
  intro s
  induction s with
  | nil => intro _ k h1 h2; simp at h2; omega
  | cons t rest ih =>
    intro h k h1 h2
    obtain ⟨_, _, h3, _, h5⟩ := h
    by_cases hk : k = rest.length + 1
    · exact ⟨t, List.mem_cons_self _ _, by rw [h3, hk]⟩
    · simp only [List.length_cons] at h2
      obtain ⟨e, he, hv⟩ := ih h5 k h1 (by omega)
      exact ⟨e, List.mem_cons_of_mem _ he, hv⟩

theorem PathOK_inj {n sx sy : Nat} {b : Board} :
    ∀ {s : List StackEntry}, PathOK n sx sy b s →
      ∀ e ∈ s, ∀ f ∈ s, b.get e.x e.y = b.get f.x f.y → e.cell = f.cell := by
  intro s
  induction s with
  | nil => intro _ e he; simp at he
  | cons t rest ih =>
    intro h e he f hf hv
    obtain ⟨_, _, h3, _, h5⟩ := h
    rcases List.mem_cons.mp he with he1 | he1
    · rcases List.mem_cons.mp hf with hf1 | hf1
      · rw [he1, hf1]
      · have := (PathOK_values h5 f hf1).2.1
        rw [he1] at hv
        omega
    · rcases List.mem_cons.mp hf with hf1 | hf1
      · have := (PathOK_values h5 e he1).2.1
        rw [hf1] at hv
        omega
      · exact ih h5 e he1 f hf1 hv

theorem PathOK_consecutive {n sx sy : Nat} {b : Board} :
    ∀ {s : List StackEntry}, PathOK n sx sy b s →
      ∀ e ∈ s, ∀ f ∈ s, b.get f.x f.y = b.get e.x e.y + 1 → KnightStep e.cell f.cell := by
  intro s
  induction s with
  | nil => intro _ e he; simp at he
  | cons t rest ih =>
    intro h e he f hf hv
    obtain ⟨_, _, h3, h4, h5⟩ := h
    rcases List.mem_cons.mp he with he1 | he1
    · rcases List.mem_cons.mp hf with hf1 | hf1
      · rw [he1, hf1] at hv
        omega
      · have := (PathOK_values h5 f hf1).2.1
        rw [he1] at hv
        omega
    · rcases List.mem_cons.mp hf with hf1 | hf1
      · rw [hf1] at hv ⊢
        cases rest with
        | nil => simp at he1
        | cons g rest' =>
          have hg : b.get g.x g.y = rest'.length + 1 := h5.2.2.1
          have hc : e.cell = g.cell :=
            PathOK_inj h5 e he1 g (List.mem_cons_self _ _) (by
              simp only [List.length_cons] at h3
              omega)
          rw [hc]
          exact h4
      · exact ih h5 e he1 f hf1 hv

theorem PathInv_init {n x y : Nat} (hx : x < n) (hy : y < n) :
    PathInv n x y (initState n x y) := by
  have hwf := emptyBoard_wf n
  refine ⟨Board.set_wf hwf x y 1, ?_, ?_⟩
  · refine ⟨hx, hy, ?_, ⟨rfl, rfl⟩, trivial⟩
    simp only [initState]
    rw [Board.get_set hwf hx hy]
    simp
  · intro a c _ _ hne
    simp only [initState] at hne ⊢
    rw [Board.get_set hwf hx hy] at hne
    by_cases hac : a = x ∧ c = y
    · exact ⟨⟨x, y, 0⟩, by simp, hac.1.symm, hac.2.symm⟩
    · rw [if_neg hac, emptyBoard_get] at hne
      exact absurd rfl hne

theorem PathInv_step {n maxTries sx sy combIdx : Nat} (hn : n * n < 2 ^ 31) (b : Board)
    (e : StackEntry) (rest : List StackEntry) (t : Nat) (st : State)
    (hP : PathInv n sx sy ⟨b, e :: rest, t⟩)
    (h : loopBody n maxTries (movesFor combIdx) b e rest t = Step.next st) :
    PathInv n sx sy st := by
  obtain ⟨hwf, hpath, hzero⟩ := hP
  simp only at hwf hpath hzero
  have hvals := PathOK_values hpath
  obtain ⟨e1, e2, e3, e4, e5⟩ := hpath
  rcases loopBody_next h with ⟨j, x, y, t', hs, rfl⟩ | ⟨t', hs, rfl⟩
  · obtain ⟨_, a2, _, _, a5, a6, _⟩ := scanMoves_advance _ _ _ _ _ _ _ _ _ _ _ _ hs
    obtain ⟨vx, vy, vz⟩ := IS_VALID_true a6
    have hj : j < MOVES_COUNT := by omega
    have hmem := movesFor_getD_mem combIdx j hj
    have hstep : KnightStep e.cell (x, y) := by
      rw [a5]
      have hxy : x = (target e ((movesFor combIdx).getD j ⟨0, 0⟩)).1 ∧
          y = (target e ((movesFor combIdx).getD j ⟨0, 0⟩)).2 := by
        rw [← a5]; exact ⟨rfl, rfl⟩
      exact target_knightStep hn e _ hmem e1 e2 (by rw [← hxy.1]; exact vx)
        (by rw [← hxy.2]; exact vy)
    have hkeep : ∀ f ∈ e :: rest,
        (b.set x y (rest.length + 2)).get f.x f.y = b.get f.x f.y := by
      intro f hf
      rw [Board.get_set hwf vx vy]
      have hf1 := (hvals f hf).1
      by_cases hc : f.x = x ∧ f.y = y
      · rw [hc.1, hc.2, vz] at hf1
        omega
      · rw [if_neg hc]
    refine ⟨Board.set_wf hwf _ _ _, ?_, ?_⟩
    · refine ⟨vx, vy, ?_, hstep, ?_⟩
      · simp only [List.length_cons]
        rw [Board.get_set hwf vx vy]
        simp
      · have hold : PathOK n sx sy b (⟨e.x, e.y, j + 1⟩ :: rest) := ⟨e1, e2, e3, e4, e5⟩
        refine PathOK_congr ?_ hold
        intro f hf
        rcases List.mem_cons.mp hf with hf1 | hf1
        · rw [hf1]
          exact hkeep e (List.mem_cons_self _ _)
        · exact hkeep f (List.mem_cons_of_mem _ hf1)
    · intro a c ha hc hne
      simp only at hne ⊢
      rw [Board.get_set hwf vx vy] at hne
      by_cases hac : a = x ∧ c = y
      · exact ⟨⟨x, y, 0⟩, by simp, hac.1.symm, hac.2.symm⟩
      · rw [if_neg hac] at hne
        obtain ⟨f, hf, hfx, hfy⟩ := hzero a c ha hc hne
        rcases List.mem_cons.mp hf with hf1 | hf1
        · exact ⟨⟨e.x, e.y, j + 1⟩, by simp, by rw [← hfx, hf1], by rw [← hfy, hf1]⟩
        · exact ⟨f, by simp [hf1], hfx, hfy⟩
  · refine ⟨Board.set_wf hwf _ _ _, ?_, ?_⟩
    · simp only
      refine PathOK_congr ?_ e5
      intro f hf
      rw [Board.get_set hwf e1 e2]
      have hf1 := (PathOK_values e5 f hf).2.1
      by_cases hc : f.x = e.x ∧ f.y = e.y
      · rw [hc.1, hc.2] at hf1
        omega
      · rw [if_neg hc]
    · intro a c ha hc hne
      simp only at hne ⊢
      rw [Board.get_set hwf e1 e2] at hne
      by_cases hac : a = e.x ∧ c = e.y
      · rw [if_pos hac] at hne
        exact absurd rfl hne
      · rw [if_neg hac] at hne
        obtain ⟨f, hf, hfx, hfy⟩ := hzero a c ha hc hne
        rcases List.mem_cons.mp hf with hf1 | hf1
        · rw [hf1] at hfx hfy
          exact absurd ⟨hfx.symm, hfy.symm⟩ hac
        · exact ⟨f, hf1, hfx, hfy⟩

/-- A state with the path invariant whose stack holds at least `n * n` frames
carries a tour on its board. -/
theorem PathInv_tour {n sx sy : Nat} {st : State} (hP : PathInv n sx sy st)
    (hfull : n * n ≤ st.stack.length) (hne : st.stack ≠ []) :
    IsTourBoard n st.checkerboard sx sy := by
  obtain ⟨_, hpath, hzero⟩ := hP
  refine ⟨PathOK_start hpath hne, ?_, ?_⟩
  · intro k h1 h2
    obtain ⟨e, he, hv⟩ := PathOK_exists hpath k h1 (by omega)
    obtain ⟨_, _, ex, ey⟩ := PathOK_values hpath e he
    refine ⟨(e.x, e.y), ⟨ex, ey, hv⟩, ?_⟩
    rintro ⟨a, c⟩ ⟨ha, hc, hac⟩
    simp only at ha hc hac
    obtain ⟨f, hf, hfx, hfy⟩ := hzero a c ha hc (by omega)
    have := PathOK_inj hpath f hf e he (by rw [hfx, hfy, hac, hv])
    simp only [StackEntry.cell, Prod.mk.injEq] at this
    rw [← hfx, ← hfy, this.1, this.2]
  · rintro k h1 _ ⟨a, c⟩ ⟨a', c'⟩ ha hc ha' hc' hk hk'
    simp only at ha hc ha' hc' hk hk'
    obtain ⟨f, hf, hfx, hfy⟩ := hzero a c ha hc (by omega)
    obtain ⟨g, hg, hgx, hgy⟩ := hzero a' c' ha' hc' (by omega)
    have := PathOK_consecutive hpath f hf g hg (by rw [hfx, hfy, hgx, hgy, hk, hk'])
    simpa [StackEntry.cell, hfx, hfy, hgx, hgy] using this

/-- C1: on a board of side `n` (with `n * n` in the range of `int`, as for
`N = 8`), for an in-range start and any combination index, if `knightTourI`
returns `found = true` then the loop was left by its condition and the board at
that point is a knight's tour: the start cell holds `1`, every value in `1..n*n`
is in exactly one cell, and the cells holding `k` and `k + 1` are one knight move
apart. -/
theorem found_board_is_tour (n maxTries x y combIdx tries : Nat) (hn : n * n < 2 ^ 31)
    (hx : x < n) (hy : y < n)
    (h : knightTourI n maxTries x y combIdx = Outcome.returned true tries) :
    ∃ st, knightTourIExit n maxTries x y combIdx = some (Exit.finished st) ∧
      st.tries = tries ∧ IsTourBoard n st.checkerboard x y := by
  have hex := knightTourIExit_eq maxTries combIdx hx hy
  unfold knightTourI at h
  rw [hex] at h ⊢
  simp only at h
  cases hm : mainLoop n maxTries (movesFor combIdx) (searchFuel maxTries) (initState n x y) with
  | budget st => rw [hm] at h; simp [Exit.result] at h
  | outOfFuel => rw [hm] at h; simp [Exit.result] at h
  | finished st =>
    rw [hm] at h
    simp only [Exit.result, Outcome.returned.injEq] at h
    obtain ⟨hP, hstop⟩ := mainLoop_finished (PathInv n x y)
      (fun b e rest t st' _ hP hb => PathInv_step hn b e rest t st' hP hb)
      _ _ st (PathInv_init hx hy) hm
    have hne : st.stack ≠ [] := by
      intro hc
      rw [hc] at h
      simp at h
    refine ⟨st, rfl, h.2, PathInv_tour hP ?_ hne⟩
    rcases hstop with hc | hc
    · exact absurd hc hne
    · exact hc

set_option maxRecDepth 100000 in
theorem found_board_is_tour_witness :
    5 * 5 < 2 ^ 31 ∧ 0 < 5 ∧
    knightTourI 5 1000 0 0 0 = Outcome.returned true 236 ∧
    ∃ st, knightTourIExit 5 1000 0 0 0 = some (Exit.finished st) ∧
      st.tries = 236 ∧ IsTourBoard 5 st.checkerboard 0 0 :=
  ⟨by decide, by decide, by decide,
    found_board_is_tour 5 1000 0 0 0 236 (by decide) (by decide) (by decide) (by decide)⟩

/-! ## Exhaustiveness of the search -/

theorem pathOf_cons (e : StackEntry) (s : List StackEntry) :
    pathOf (e :: s) = pathOf s ++ [e.cell] := by
  simp [pathOf]

theorem mem_pathOf {s : List StackEntry} {f : StackEntry} (hf : f ∈ s) :
    f.cell ∈ pathOf s := by
  unfold pathOf
  rw [List.mem_reverse]
  exact List.mem_map_of_mem _ hf

/-- Every knight move between two cells of the board is the target of one of the
eight offsets of the ordering in use. -/
theorem knightStep_target_exists {n : Nat} (hn : n * n < 2 ^ 31) (combIdx : Nat)
    (f : StackEntry) (d : Nat × Nat) (hd1 : d.1 < n) (hd2 : d.2 < n)
    (hstep : KnightStep f.cell d) :
    ∃ m, m < MOVES_COUNT ∧ target f ((movesFor combIdx).getD m ⟨0, 0⟩) = d := by
  have hn' := side_le_of_sq_lt hn
  have hv : (⟨(d.1 : Int) - f.x, (d.2 : Int) - f.y⟩ : Vec2i) ∈ canonicalMoves := by
    unfold KnightStep StackEntry.cell at hstep
    simp only at hstep
    rcases hstep with ⟨h1, h2⟩ | ⟨h1, h2⟩
    · have hx : (d.1 : Int) - f.x = 1 ∨ (d.1 : Int) - f.x = -1 := by omega
      have hy : (d.2 : Int) - f.y = 2 ∨ (d.2 : Int) - f.y = -2 := by omega
      rcases hx with hx | hx <;> rcases hy with hy | hy <;> rw [hx, hy] <;> decide
    · have hx : (d.1 : Int) - f.x = 2 ∨ (d.1 : Int) - f.x = -2 := by omega
      have hy : (d.2 : Int) - f.y = 1 ∨ (d.2 : Int) - f.y = -1 := by omega
      rcases hx with hx | hx <;> rcases hy with hy | hy <;> rw [hx, hy] <;> decide
  have hv' := (movesFor_perm combIdx).mem_iff.mpr hv
  obtain ⟨m, hm, hmv⟩ := List.getElem_of_mem hv'
  refine ⟨m, by rw [movesFor_length] at hm; exact hm, ?_⟩
  rw [List.getD_eq_getElem _ _ hm, hmv]
  unfold target addU32
  simp only
  ext
  · simp only; omega
  · simp only; omega

/-- A target that fails `IS_VALID` cannot continue a tour along the stack. -/
theorem invalid_not_on_tour {n sx sy : Nat} {b : Board} {e : StackEntry}
    {rest : List StackEntry} {t : Nat} (hP : PathInv n sx sy ⟨b, e :: rest, t⟩)
    {p : List (Nat × Nat)} (hp : IsTourFrom n sx sy p) {c : Nat × Nat}
    {tl : List (Nat × Nat)} (hpe : p = pathOf (e :: rest) ++ c :: tl)
    (hv : IS_VALID n b c.1 c.2 = false) : False := by
  obtain ⟨_, _, hnd, hrange, _⟩ := hp
  have hc : c ∈ p := by rw [hpe]; simp
  obtain ⟨c1, c2⟩ := hrange c hc
  obtain ⟨f, hf, hfx, hfy⟩ := hP.2.2 c.1 c.2 c1 c2 (IS_VALID_false hv c1 c2)
  have hmem : c ∈ pathOf (e :: rest) := by
    have := mem_pathOf hf
    have hcf : f.cell = c := by
      unfold StackEntry.cell
      rw [hfx, hfy]
    rw [hcf] at this
    exact this
  rw [hpe] at hnd
  exact (List.disjoint_of_nodup_append hnd) hmem (List.mem_cons_self _ _)

theorem Complete_init {n x y : Nat} (hn : n * n < 2 ^ 31) (combIdx : Nat) :
    Complete n x y (movesFor combIdx) (initState n x y) := by
  by_cases h1 : n * n = 1
  · left
    simp [initState, h1]
  · right
    intro p hp
    obtain ⟨hlen, hhead, _, hrange, hchain⟩ := hp
    cases p with
    | nil => simp at hhead
    | cons c p1 =>
      simp only [List.head?_cons, Option.some.injEq] at hhead
      subst hhead
      cases p1 with
      | nil =>
        simp only [List.length_cons, List.length_nil] at hlen
        omega
      | cons d tl =>
        have hd := hrange d (by simp)
        have hstep : KnightStep (x, y) d := by
          rw [List.chain'_cons] at hchain
          exact hchain.1
        obtain ⟨m, hm, hmt⟩ := knightStep_target_exists hn combIdx ⟨x, y, 0⟩ d hd.1 hd.2 hstep
        refine ⟨[], ⟨x, y, 0⟩, [], m, tl, rfl, Nat.zero_le _, hm, ?_⟩
        rw [hmt]
        simp [pathOf, StackEntry.cell]

theorem Complete_step {n maxTries sx sy combIdx : Nat} (hn : n * n < 2 ^ 31) (b : Board)
    (e : StackEntry) (rest : List StackEntry) (t : Nat) (st : State)
    (hc : rest.length + 1 < n * n) (hP : PathInv n sx sy ⟨b, e :: rest, t⟩)
    (hC : Complete n sx sy (movesFor combIdx) ⟨b, e :: rest, t⟩)
    (h : loopBody n maxTries (movesFor combIdx) b e rest t = Step.next st) :
    Complete n sx sy (movesFor combIdx) st := by
  have hcov : ∀ p, IsTourFrom n sx sy p → Covered (movesFor combIdx) (e :: rest) p := by
    rcases hC with hC | hC
    · simp only [List.length_cons] at hC
      omega
    · exact hC
  rcases loopBody_next h with ⟨j, x, y, t', hs, rfl⟩ | ⟨t', hs, rfl⟩
  · obtain ⟨a1, a2, _, _, a5, a6, a7⟩ := scanMoves_advance _ _ _ _ _ _ _ _ _ _ _ _ hs
    obtain ⟨vx, vy, _⟩ := IS_VALID_true a6
    by_cases hfull : rest.length + 2 = n * n
    · left
      simpa using hfull
    · right
      intro p hp
      obtain ⟨pre, f, post, m, tl, hst, hm1, hm2, hpe⟩ := hcov p hp
      cases pre with
      | nil =>
        simp only [List.nil_append, List.cons.injEq] at hst
        obtain ⟨rfl, rfl⟩ := hst
        rcases Nat.lt_trichotomy m j with hlt | heq | hgt
        · exact (invalid_not_on_tour hP hp hpe (a7 m hm1 hlt)).elim
        · subst heq
          rw [← a5] at hpe
          cases tl with
          | nil =>
            have hlen := hp.1
            rw [hpe] at hlen
            simp [pathOf] at hlen
            omega
          | cons d tl' =>
            have hd : d ∈ p := by rw [hpe]; simp
            obtain ⟨d1, d2⟩ := hp.2.2.2.1 d hd
            have hstep : KnightStep (x, y) d := by
              have hch := hp.2.2.2.2
              rw [hpe] at hch
              have := (List.chain'_append.mp hch).2.1
              rw [List.chain'_cons] at this
              exact this.1
            obtain ⟨m', hm', hmt⟩ :=
              knightStep_target_exists hn combIdx ⟨x, y, 0⟩ d d1 d2 hstep
            refine ⟨[], ⟨x, y, 0⟩, ⟨e.x, e.y, m + 1⟩ :: rest, m', tl', rfl, Nat.zero_le _,
              hm', ?_⟩
            rw [hmt, hpe]
            simp [pathOf, StackEntry.cell]
        · refine ⟨[⟨x, y, 0⟩], ⟨e.x, e.y, j + 1⟩, rest, m, tl, rfl, by simp only; omega,
            hm2, ?_⟩
          rw [hpe]
          simp [pathOf, StackEntry.cell, target]
      | cons e0 pre' =>
        simp only [List.cons_append, List.cons.injEq] at hst
        obtain ⟨_, hrest⟩ := hst
        refine ⟨⟨x, y, 0⟩ :: ⟨e.x, e.y, j + 1⟩ :: pre', f, post, m, tl, ?_, hm1, hm2, hpe⟩
        simp [hrest]
  · obtain ⟨_, _, a3⟩ := scanMoves_exhausted _ _ _ _ _ _ _ _ _ hs
    right
    intro p hp
    obtain ⟨pre, f, post, m, tl, hst, hm1, hm2, hpe⟩ := hcov p hp
    cases pre with
    | nil =>
      simp only [List.nil_append, List.cons.injEq] at hst
      obtain ⟨rfl, rfl⟩ := hst
      exact (invalid_not_on_tour hP hp hpe (a3 m hm1 (by omega))).elim
    | cons e0 pre' =>
      simp only [List.cons_append, List.cons.injEq] at hst
      obtain ⟨_, hrest⟩ := hst
      exact ⟨pre', f, post, m, tl, hrest, hm1, hm2, hpe⟩

/-- C2: on a board of side `n` (with `n * n` in the range of `int`, as for
`N = 8`), for an in-range start and any combination index, if `knightTourI`
returns `found = false` with fewer tries than the budget, then no knight's tour
of the board starts at that cell. -/
theorem dead_end_means_no_tour (n maxTries x y combIdx tries : Nat) (hn : n * n < 2 ^ 31)
    (hx : x < n) (hy : y < n)
    (h : knightTourI n maxTries x y combIdx = Outcome.returned false tries)
    (hlt : tries < maxTries) :
    ¬ ∃ p, IsTourFrom n x y p := by
  have hex := knightTourIExit_eq maxTries combIdx hx hy
  unfold knightTourI at h
  rw [hex] at h
  simp only at h
  cases hm : mainLoop n maxTries (movesFor combIdx) (searchFuel maxTries) (initState n x y) with
  | outOfFuel => rw [hm] at h; simp [Exit.result] at h
  | budget st =>
    rw [hm] at h
    simp only [Exit.result, Outcome.returned.injEq, true_and] at h
    obtain ⟨b, e, rest, t, _, _, hb⟩ := mainLoop_budget (fun _ => True)
      (fun _ _ _ _ _ _ _ _ => trivial) _ _ st trivial hm
    obtain ⟨t', hs, rfl⟩ := loopBody_budget hb
    obtain ⟨_, a2, _⟩ := scanMoves_budget _ _ _ _ _ _ _ _ _ hs
    simp only at h
    omega
  | finished st =>
    rw [hm] at h
    simp only [Exit.result, Outcome.returned.injEq] at h
    obtain ⟨hP, _⟩ := mainLoop_finished
      (fun s => PathInv n x y s ∧ Complete n x y (movesFor combIdx) s)
      (fun b e rest t st' hc hP hb =>
        ⟨PathInv_step hn b e rest t st' hP.1 hb, Complete_step hn b e rest t st' hc hP.1 hP.2 hb⟩)
      _ _ st ⟨PathInv_init hx hy, Complete_init hn combIdx⟩ hm
    have hnil : st.stack = [] := by
      have := h.1
      cases hst : st.stack with
      | nil => rfl
      | cons a l => rw [hst] at this; simp at this
    rintro ⟨p, hp⟩
    rcases hP.2 with hfull | hcov
    · rw [hnil] at hfull
      have : 0 < n * n := Nat.mul_pos (by omega) (by omega)
      simp at hfull
      omega
    · obtain ⟨pre, f, post, _, _, hst, _⟩ := hcov p hp
      rw [hnil] at hst
      simp at hst

set_option maxRecDepth 100000 in
theorem dead_end_means_no_tour_witness :
    3 * 3 < 2 ^ 31 ∧ 1 < 3 ∧
    knightTourI 3 1000 1 1 0 = Outcome.returned false 8 ∧
    knightTourI 3 1000 0 0 5 = Outcome.returned false 120 ∧
    (¬ ∃ p, IsTourFrom 3 0 0 p) :=
  ⟨by decide, by decide, by decide, by decide,
    dead_end_means_no_tour 3 1000 0 0 5 120 (by decide) (by decide) (by decide) (by decide)
      (by decide)⟩

/-! ## The tracker after a batch -/

/-- After any sequence of reports applied to a freshly reset tracker, the tracker
holds the sentinel state exactly when no report had `found = true` with tries
below `UINT64_MAX` (the inner test of `run` is strict); otherwise it holds the
tries and the index of one of the reports with `found = true`. -/
theorem applyReports_reset_spec (rs : List Report) :
    (applyReports BestScore.reset rs = BestScore.reset ↔
      ¬ ∃ r ∈ rs, r.found = true ∧ r.tries < UINT64_MAX) ∧
    ((∃ r ∈ rs, r.found = true ∧ r.tries < UINT64_MAX) →
      ∃ r ∈ rs, r.found = true ∧ applyReports BestScore.reset rs = ⟨r.tries, r.combIdx⟩) := by
  rcases applyReports_spec rs BestScore.reset with
    ⟨hno, heq⟩ | ⟨p, r, q, hrs, hf, hlt, _, _, heq⟩
  · exact ⟨⟨fun _ => hno, fun _ => heq⟩, fun hex => absurd hex hno⟩
  · have hr : r ∈ rs := by rw [hrs]; simp
    have hlt' : r.tries < UINT64_MAX := hlt
    refine ⟨⟨fun h => ?_, fun h => absurd ⟨r, hr, hf, hlt'⟩ h⟩, fun _ => ⟨r, hr, hf, heq⟩⟩
    rw [heq] at h
    have ht : r.tries = UINT64_MAX := congrArg BestScore.tries h
    omega

/-- A report of `run` with `found = true` has its tries below the budget: the
call of `knightTourI` behind it left the main loop by its condition. -/
theorem runReport_found_lt {n maxTries x y combIdx : Nat} {r : Report} (hmax : 0 < maxTries)
    (h : runReport n maxTries x y combIdx = some r) (hf : r.found = true) :
    r.tries < maxTries := by
  by_cases hv : IS_VALID n (emptyBoard n) x y = true
  · obtain ⟨hx, hy⟩ := (IS_VALID_emptyBoard n x y).mp hv
    have hex := knightTourIExit_eq maxTries combIdx hx hy
    rcases @search_exit n maxTries x y combIdx (fun _ => True)
        (fun _ _ _ _ _ _ _ _ => trivial) trivial hmax hx
      with ⟨st, hst, _, h1, _, _⟩ | ⟨st, hst, _, _, _⟩
    · simp only [runReport, knightTourI, hex, hst, Exit.result, Option.some.injEq] at h
      rw [← h]
      exact h1
    · simp only [runReport, knightTourI, hex, hst, Exit.result, Option.some.injEq] at h
      rw [← h] at hf
      exact absurd hf Bool.false_ne_true
  · simp [runReport, knightTourI, knightTourIExit, hv] at h

/-- C11: for every sequence of reports that `run` can hand to the tracker (each
is the pair returned by a call of `knightTourI` with the report's index, on a
board of side `n` with a positive budget not above `UINT64_MAX`, as `N` and
`MAX_TRIES` are), applied to a freshly reset tracker: the tracker afterwards
holds the sentinel state if and only if no report had `found = true`; otherwise
it holds the tries and the index of one of the reports with `found = true`. -/
theorem sentinel_iff_no_found (n maxTries : Nat) (hmax : 0 < maxTries)
    (hle : maxTries ≤ UINT64_MAX) (rs : List Report)
    (hsrc : ∀ r ∈ rs, ∃ x y, runReport n maxTries x y r.combIdx = some r) :
    (applyReports BestScore.reset rs = BestScore.reset ↔ ∀ r ∈ rs, r.found = false) ∧
    (¬ applyReports BestScore.reset rs = BestScore.reset →
      ∃ r ∈ rs, r.found = true ∧ applyReports BestScore.reset rs = ⟨r.tries, r.combIdx⟩) := by
  have hlt : ∀ r ∈ rs, r.found = true → r.tries < UINT64_MAX := by
    intro r hr hf
    obtain ⟨x, y, hxy⟩ := hsrc r hr
    exact Nat.lt_of_lt_of_le (runReport_found_lt hmax hxy hf) hle
  have hiff : applyReports BestScore.reset rs = BestScore.reset ↔ ∀ r ∈ rs, r.found = false := by
    rw [(applyReports_reset_spec rs).1]
    constructor
    · intro h r hr
      cases hf : r.found with
      | false => rfl
      | true => exact absurd ⟨r, hr, hf, hlt r hr hf⟩ h
    · rintro h ⟨r, hr, hf, _⟩
      rw [h r hr] at hf
      exact absurd hf (by decide)
  refine ⟨hiff, fun hne => ?_⟩
  have hex : ∃ r ∈ rs, r.found = true := by
    by_contra hc
    apply hne
    rw [hiff]
    intro r hr
    cases hf : r.found with
    | false => rfl
    | true => exact absurd ⟨r, hr, hf⟩ hc
  obtain ⟨r, hr, hf⟩ := hex
  exact (applyReports_reset_spec rs).2 ⟨r, hr, hf, hlt r hr hf⟩

set_option maxRecDepth 100000 in
theorem sentinel_iff_no_found_witness :
    0 < 1000 ∧ 1000 ≤ UINT64_MAX ∧
    runReport 5 1000 0 0 0 = some (Report.mk true 236 0) ∧
    runReport 5 1000 0 0 7 = some (Report.mk true 230 7) ∧
    applyReports BestScore.reset [Report.mk true 236 0, Report.mk true 230 7]
      = ⟨230, 7⟩ ∧
    ((applyReports BestScore.reset [Report.mk true 236 0, Report.mk true 230 7]
        = BestScore.reset ↔
      ∀ r ∈ [Report.mk true 236 0, Report.mk true 230 7], r.found = false) ∧
    (¬ applyReports BestScore.reset [Report.mk true 236 0, Report.mk true 230 7]
        = BestScore.reset →
      ∃ r ∈ [Report.mk true 236 0, Report.mk true 230 7], r.found = true ∧
        applyReports BestScore.reset [Report.mk true 236 0, Report.mk true 230 7]
          = ⟨r.tries, r.combIdx⟩)) :=
  ⟨by decide, by decide, by decide, by decide, by decide,
    sentinel_iff_no_found 5 1000 (by decide) (by decide)
      [Report.mk true 236 0, Report.mk true 230 7]
      (List.forall_mem_cons.mpr ⟨⟨0, 0, by decide⟩,
        List.forall_mem_cons.mpr ⟨⟨0, 0, by decide⟩, fun _ h => absurd h (List.not_mem_nil _)⟩⟩)⟩

/-- C12: for every list of reports and every permutation of it, applying the
update rule from the reset state records the same tries; and if the two orders
record different indices, these are the indices of two reports of the list that
both have `found = true` and the recorded (least) tries. -/
theorem arrival_order_irrelevant (rs rs' : List Report) (hperm : List.Perm rs rs') :
    (applyReports BestScore.reset rs).tries = (applyReports BestScore.reset rs').tries ∧
    ((applyReports BestScore.reset rs).combIdx ≠ (applyReports BestScore.reset rs').combIdx →
      ∃ r ∈ rs, ∃ r' ∈ rs, r.found = true ∧ r'.found = true ∧
        r.tries = (applyReports BestScore.reset rs).tries ∧
        r'.tries = (applyReports BestScore.reset rs).tries ∧
        (∀ s ∈ rs, s.found = true → r.tries ≤ s.tries) ∧
        r.combIdx = (applyReports BestScore.reset rs).combIdx ∧
        r'.combIdx = (applyReports BestScore.reset rs').combIdx) := by
  rcases applyReports_spec rs BestScore.reset with
    ⟨hno, heq⟩ | ⟨p, r, q, hrs, hf, hlt, hmin, _, heq⟩ <;>
  rcases applyReports_spec rs' BestScore.reset with
    ⟨hno', heq'⟩ | ⟨p', r', q', hrs', hf', hlt', hmin', _, heq'⟩
  · rw [heq, heq']
    exact ⟨rfl, fun h => absurd rfl h⟩
  · have hr' : r' ∈ rs := hperm.mem_iff.mpr (by rw [hrs']; simp)
    exact absurd ⟨r', hr', hf', hlt'⟩ hno
  · have hr : r ∈ rs' := hperm.mem_iff.mp (by rw [hrs]; simp)
    exact absurd ⟨r, hr, hf, hlt⟩ hno'
  · have hr : r ∈ rs := by rw [hrs]; simp
    have hr' : r' ∈ rs' := by rw [hrs']; simp
    have h1 := hmin r' (hperm.mem_iff.mpr hr') hf'
    have h2 := hmin' r (hperm.mem_iff.mp hr) hf
    have ht : r.tries = r'.tries := Nat.le_antisymm h1 h2
    rw [heq, heq']
    exact ⟨ht, fun _ => ⟨r, hr, r', hperm.mem_iff.mpr hr', hf, hf', rfl, ht.symm, hmin, rfl, rfl⟩⟩

theorem arrival_order_irrelevant_witness :
    List.Perm [Report.mk true 5 2, Report.mk true 7 1, Report.mk true 5 9]
      [Report.mk true 5 9, Report.mk true 5 2, Report.mk true 7 1] ∧
    (applyReports BestScore.reset
      [Report.mk true 5 2, Report.mk true 7 1, Report.mk true 5 9]).combIdx = 2 ∧
    (applyReports BestScore.reset
      [Report.mk true 5 9, Report.mk true 5 2, Report.mk true 7 1]).combIdx = 9 ∧
    (applyReports BestScore.reset
      [Report.mk true 5 2, Report.mk true 7 1, Report.mk true 5 9]).tries =
    (applyReports BestScore.reset
      [Report.mk true 5 9, Report.mk true 5 2, Report.mk true 7 1]).tries :=
  ⟨by decide, by decide, by decide,
    (arrival_order_irrelevant [Report.mk true 5 2, Report.mk true 7 1, Report.mk true 5 9]
      [Report.mk true 5 9, Report.mk true 5 2, Report.mk true 7 1] (by decide)).1⟩

/-! ## Frame, arithmetic and period -/

/-- On a store whose locals are declared, the inner loop reads and writes the
locals only: it is the inner loop on the local board and counter, and the store
it leaves differs only in the local counter. -/
theorem scanMovesIn_eq (n maxTries : Nat) (moves : List Vec2i) (e : StackEntry)
    (g : Globals) (b : Board) :
    ∀ k i t, scanMovesIn n maxTries moves e k i ⟨g, some b, some t⟩
      = (scanMoves n maxTries moves b e k i t,
          ⟨g, some b, some (scanMoves n maxTries moves b e k i t).tries⟩) := by
  intro k
  induction k with
  | zero => intro i t; rfl
  | succ k ih =>
    intro i t
    simp only [scanMovesIn, scanMoves, Store.setTries, Store.triesVal, Store.board]
    split_ifs with h1 h2
    · rfl
    · rfl
    · exact ih (i + 1) (t + 1)

/-- On a store whose locals are declared, the body of the main loop writes the
local board only. -/
theorem loopBodyIn_eq (n maxTries : Nat) (moves : List Vec2i) (e : StackEntry)
    (rest : List StackEntry) (g : Globals) (b : Board) (t : Nat) :
    loopBodyIn n maxTries moves e rest ⟨g, some b, some t⟩
      = (loopBody n maxTries moves b e rest t).inStore g := by
  unfold loopBodyIn loopBody
  rw [scanMovesIn_eq]
  cases scanMoves n maxTries moves b e (MOVES_COUNT - e.nextMoveIdx) e.nextMoveIdx t <;>
    simp [Step.inStore, State.inStore, Store.setCell, Scan.tries]

/-- On a store whose locals are declared, the main loop returns what the main loop
on the local board and counter returns, and leaves the globals as they were. -/
theorem mainLoopIn_eq (n maxTries : Nat) (moves : List Vec2i) (g : Globals) :
    ∀ fuel b stack t,
      (mainLoopIn n maxTries moves fuel ⟨g, some b, some t⟩ stack).result
        = (mainLoop n maxTries moves fuel ⟨b, stack, t⟩).result ∧
      (mainLoopIn n maxTries moves fuel ⟨g, some b, some t⟩ stack).store.globals = g := by
  intro fuel
  induction fuel with
  | zero =>
    intro b stack t
    cases stack with
    | nil => simp [mainLoopIn, mainLoop, ExitIn.result, Exit.result, ExitIn.store, Store.triesVal]
    | cons e rest =>
      simp only [mainLoopIn, mainLoop]
      split_ifs <;>
        simp [ExitIn.result, Exit.result, ExitIn.store, Store.triesVal]
  | succ fuel ih =>
    intro b stack t
    cases stack with
    | nil => simp [mainLoopIn, mainLoop, ExitIn.result, Exit.result, ExitIn.store, Store.triesVal]
    | cons e rest =>
      simp only [mainLoopIn, mainLoop]
      split_ifs
      · rw [loopBodyIn_eq]
        cases loopBody n maxTries moves b e rest t with
        | budget st =>
          simp [Step.inStore, State.inStore, ExitIn.result, Exit.result, ExitIn.store,
            Store.triesVal]
        | next st =>
          obtain ⟨b1, stack1, t1⟩ := st
          exact ih b1 stack1 t1
      · simp [ExitIn.result, Exit.result, ExitIn.store, Store.triesVal]

/-- The name resolution decides which array is written: with no local
`checkerboard` declared, the same assignment goes to the global, and the same
increment to the global `tries`. -/
theorem store_write_without_local (g : Globals) (x y v : Nat) :
    (Store.setCell ⟨g, none, none⟩ x y v).globals = ⟨g.checkerboard.set x y v, g.tries⟩ ∧
    (Store.setTries ⟨g, none, none⟩ v).globals = ⟨g.checkerboard, v⟩ :=
  ⟨rfl, rfl⟩

/-- C13: a call of `knightTourI`, run statement by statement on a store in which
the names `checkerboard` and `tries` denote the innermost declaration, leaves the
global `checkerboard` and the global `tries` as they were; its result is the same
whatever the globals hold, and it is the result of the search on the local board
and counter alone, which is determined by `(x, y, combIdx)` (for the given board
side and budget). -/
theorem knightTourI_frame (n maxTries x y combIdx : Nat) (g g' : Globals) :
    (knightTourIIn n maxTries g x y combIdx).2 = g ∧
    (knightTourIIn n maxTries g x y combIdx).1
      = (knightTourIIn n maxTries g' x y combIdx).1 ∧
    (knightTourIIn n maxTries g x y combIdx).1 = knightTourI n maxTries x y combIdx := by
  have key : ∀ h : Globals,
      (knightTourIIn n maxTries h x y combIdx).2 = h ∧
      (knightTourIIn n maxTries h x y combIdx).1 = knightTourI n maxTries x y combIdx := by
    intro h
    simp only [knightTourIIn, knightTourI, knightTourIExit, Store.declareBoard,
      Store.declareTries, Store.board, Store.setCell, initState]
    split_ifs with hv
    · have hm := mainLoopIn_eq n maxTries (movesFor combIdx) h (searchFuel maxTries)
        ((emptyBoard n).set x y 1) [⟨x, y, 0⟩] 0
      exact ⟨hm.2, hm.1⟩
    · exact ⟨rfl, rfl⟩
  exact ⟨(key g).1, (key g).2.trans (key g').2.symm, (key g).2⟩

/-- C17: for a coordinate `c` on a board of side `n` (with `n * n` in the range of
`int`) and a knight delta `d` in `{-2, -1, 1, 2}`, the unsigned 32-bit sum is
below `n` exactly when the integer `c + d` lies in `[0, n)`, and then it is that
integer; hence `IS_VALID` accepts the target of a frame on the board exactly when
both true coordinates are on the board and that cell holds `0`. -/
theorem unsigned_move_legality (n : Nat) (hn : n * n < 2 ^ 31) :
    (∀ (c : Nat) (d : Int), c < n → (d = -2 ∨ d = -1 ∨ d = 1 ∨ d = 2) →
      ((addU32 c d < n ↔ (0 ≤ (c : Int) + d ∧ (c : Int) + d < n)) ∧
       (addU32 c d < n → (addU32 c d : Int) = c + d))) ∧
    (∀ (b : Board) (e : StackEntry) (m : Vec2i), e.x < n → e.y < n → m ∈ canonicalMoves →
      (IS_VALID n b (target e m).1 (target e m).2 = true ↔
        (0 ≤ (e.x : Int) + m.x ∧ (e.x : Int) + m.x < n ∧
         0 ≤ (e.y : Int) + m.y ∧ (e.y : Int) + m.y < n ∧
         b.get ((e.x : Int) + m.x).toNat ((e.y : Int) + m.y).toNat = 0))) := by
  have hn' := side_le_of_sq_lt hn
  have key : ∀ (c : Nat) (d : Int), c < n → (d = -2 ∨ d = -1 ∨ d = 1 ∨ d = 2) →
      ((addU32 c d < n ↔ (0 ≤ (c : Int) + d ∧ (c : Int) + d < n)) ∧
       (addU32 c d < n → (addU32 c d : Int) = c + d)) := by
    intro c d hc hd
    unfold addU32
    constructor
    · constructor
      · intro h; omega
      · intro h; omega
    · intro h; omega
  refine ⟨key, ?_⟩
  intro b e m hx hy hm
  have hdx : m.x = -2 ∨ m.x = -1 ∨ m.x = 1 ∨ m.x = 2 := by
    simp only [canonicalMoves, List.mem_cons, List.mem_singleton, List.not_mem_nil,
      or_false] at hm
    rcases hm with rfl | rfl | rfl | rfl | rfl | rfl | rfl | rfl <;> simp
  have hdy : m.y = -2 ∨ m.y = -1 ∨ m.y = 1 ∨ m.y = 2 := by
    simp only [canonicalMoves, List.mem_cons, List.mem_singleton, List.not_mem_nil,
      or_false] at hm
    rcases hm with rfl | rfl | rfl | rfl | rfl | rfl | rfl | rfl <;> simp
  obtain ⟨kx1, kx2⟩ := key e.x m.x hx hdx
  obtain ⟨ky1, ky2⟩ := key e.y m.y hy hdy
  unfold IS_VALID target
  simp only [Bool.and_eq_true, decide_eq_true_eq]
  constructor
  · rintro ⟨h1, h2, h3⟩
    have e1 := kx2 h1
    have e2 := ky2 h2
    have hxx := kx1.mp h1
    have hyy := ky1.mp h2
    refine ⟨hxx.1, hxx.2, hyy.1, hyy.2, ?_⟩
    rw [← e1, ← e2]
    simpa using h3
  · rintro ⟨h1, h2, h3, h4, h5⟩
    have a1 := kx1.mpr ⟨h1, h2⟩
    have a2 := ky1.mpr ⟨h3, h4⟩
    have e1 := kx2 a1
    have e2 := ky2 a2
    refine ⟨a1, a2, ?_⟩
    rw [← e1, ← e2] at h5
    simpa using h5

theorem unsigned_move_legality_witness :
    8 * 8 < 2 ^ 31 ∧
    ¬ addU32 0 (-2) < 8 ∧ addU32 0 (-2) = 4294967294 ∧ addU32 7 1 = 8 ∧ addU32 3 (-1) = 2 ∧
    ((addU32 0 (-2) < 8 ↔ (0 ≤ ((0 : Nat) : Int) + (-2) ∧ ((0 : Nat) : Int) + (-2) < (8 : Nat))) ∧
     (addU32 0 (-2) < 8 → (addU32 0 (-2) : Int) = (0 : Nat) + (-2))) :=
  ⟨by decide, by decide, by decide, by decide, by decide,
    (unsigned_move_legality 8 (by decide)).1 0 (-2) (by decide) (Or.inl rfl)⟩

theorem movesFor_injOn : ∀ a, a < 56 → ∀ b, b < 56 → movesFor a = movesFor b → a = b := by
  set_option maxRecDepth 1000000 in decide

theorem knightTourI_congr_moves (n maxTries x y c c' : Nat) (h : movesFor c = movesFor c') :
    knightTourI n maxTries x y c = knightTourI n maxTries x y c' := by
  unfold knightTourI knightTourIExit
  rw [h]

/-- C19: on the eight canonical offsets the encoder has period exactly 56: two
indices give the same ordering exactly when they are congruent modulo 56; so the
orderings of the indices `0..55` are pairwise distinct and every index gives one
of them, and `knightTourI` returns the same for `c` and for `c % 56`. -/
theorem encoder_period_56 :
    (∀ n m : Nat, changeCombination canonicalMoves n = changeCombination canonicalMoves m ↔
      n % 56 = m % 56) ∧
    ((List.range 56).map (changeCombination canonicalMoves)).Nodup ∧
    (∀ n : Nat, changeCombination canonicalMoves n ∈
      (List.range 56).map (changeCombination canonicalMoves)) ∧
    (∀ n maxTries x y c : Nat,
      knightTourI n maxTries x y c = knightTourI n maxTries x y (c % 56)) := by
  have hiff : ∀ n m : Nat, movesFor n = movesFor m ↔ n % 56 = m % 56 := by
    intro n m
    constructor
    · intro h
      rw [movesFor_mod n, movesFor_mod m] at h
      exact movesFor_injOn _ (Nat.mod_lt _ (by decide)) _ (Nat.mod_lt _ (by decide)) h
    · intro h
      rw [movesFor_mod n, movesFor_mod m, h]
  refine ⟨hiff, ?_, ?_, ?_⟩
  · refine (List.nodup_map_iff_inj_on (List.nodup_range 56)).mpr ?_
    intro a ha b hb hab
    exact movesFor_injOn a (List.mem_range.mp ha) b (List.mem_range.mp hb) hab
  · intro n
    refine List.mem_map.mpr ⟨n % 56, List.mem_range.mpr (Nat.mod_lt _ (by decide)), ?_⟩
    exact (movesFor_mod n).symm
  · intro n maxTries x y c
    exact knightTourI_congr_moves n maxTries x y c (c % 56) (movesFor_mod c)

/-- C18: from an in-range start with a positive budget, `knightTourI` returns
`found = true` exactly when the stack holds `n * n` frames where the search
stopped, and returns `found = false` with tries below the budget exactly when the
stack is empty there; in that case every cell of the board holds `0` again. -/
theorem found_iff_full_stack (n maxTries x y combIdx : Nat) (hn : n * n < 2 ^ 31)
    (hmax : 0 < maxTries) (hx : x < n) (hy : y < n) :
    ∃ ex st found tries, knightTourIExit n maxTries x y combIdx = some ex ∧
      (ex = Exit.finished st ∨ ex = Exit.budget st) ∧
      knightTourI n maxTries x y combIdx = Outcome.returned found tries ∧
      (found = true ↔ st.stack.length = n * n) ∧
      ((found = false ∧ tries < maxTries) ↔ st.stack = []) ∧
      (st.stack = [] → ∀ a b, a < n → b < n → st.checkerboard.get a b = 0) := by
  have hex := knightTourIExit_eq maxTries combIdx hx hy
  have hnn : 0 < n * n := Nat.mul_pos (by omega) (by omega)
  rcases search_exit combIdx (PathInv n x y)
      (fun b e rest t st' _ hP hb => PathInv_step hn b e rest t st' hP hb)
      (PathInv_init hx hy) hmax hx
    with ⟨st, hst, hP, h1, _, h3⟩ | ⟨st, hst, h1, h2, h3⟩
  · have hzero : st.stack = [] → ∀ a b, a < n → b < n → st.checkerboard.get a b = 0 := by
      intro hnil a b ha hb
      by_contra hne
      obtain ⟨f, hf, _⟩ := hP.2.2 a b ha hb hne
      rw [hnil] at hf
      simp at hf
    refine ⟨Exit.finished st, st, !st.stack.isEmpty, st.tries, by rw [hex, hst], Or.inl rfl,
      by simp [knightTourI, hex, hst, Exit.result], ?_, ?_, hzero⟩
    · rcases h3 with h | h
      · rw [h]
        simp
        omega
      · constructor
        · intro _; exact h
        · intro _
          cases hs : st.stack with
          | nil => rw [hs] at h; simp at h; omega
          | cons a l => simp
    · constructor
      · rintro ⟨hf, _⟩
        cases hs : st.stack with
        | nil => rfl
        | cons a l => rw [hs] at hf; simp at hf
      · intro hnil
        rw [hnil]
        exact ⟨by simp, h1⟩
  · refine ⟨Exit.budget st, st, false, st.tries, by rw [hex, hst], Or.inr rfl,
      by simp [knightTourI, hex, hst, Exit.result], ?_, ?_, fun h => absurd h h2⟩
    · constructor
      · intro h; exact absurd h (by decide)
      · intro h; omega
    · constructor
      · rintro ⟨_, hlt⟩; omega
      · intro h; exact absurd h h2

set_option maxRecDepth 100000 in
theorem found_iff_full_stack_witness :
    5 * 5 < 2 ^ 31 ∧ 0 < 1000 ∧ 0 < 5 ∧
    knightTourI 5 1000 0 0 0 = Outcome.returned true 236 ∧
    knightTourI 3 1000 0 0 0 = Outcome.returned false 120 ∧
    ∃ ex st found tries, knightTourIExit 3 1000 0 0 0 = some ex ∧
      (ex = Exit.finished st ∨ ex = Exit.budget st) ∧
      knightTourI 3 1000 0 0 0 = Outcome.returned found tries ∧
      (found = true ↔ st.stack.length = 3 * 3) ∧
      ((found = false ∧ tries < 1000) ↔ st.stack = []) ∧
      (st.stack = [] → ∀ a b, a < 3 → b < 3 → st.checkerboard.get a b = 0) :=
  ⟨by decide, by decide, by decide, by decide, by decide,
    found_iff_full_stack 3 1000 0 0 0 (by decide) (by decide) (by decide) (by decide)⟩

/-! ## The invariant by depth -/

theorem pathOf_length (s : List StackEntry) : (pathOf s).length = s.length := by
  simp [pathOf]

theorem mem_pathOf_iff {s : List StackEntry} {c : Nat × Nat} :
    c ∈ pathOf s ↔ ∃ e ∈ s, e.cell = c := by
  simp [pathOf]

theorem pathOf_getElem?_tail (e : StackEntry) (rest : List StackEntry) {k : Nat}
    (hk : k < rest.length) : (pathOf (e :: rest))[k]? = (pathOf rest)[k]? := by
  rw [pathOf_cons]
  exact List.getElem?_append_left (by rw [pathOf_length]; exact hk)

theorem pathOf_getElem?_top (e : StackEntry) (rest : List StackEntry) :
    (pathOf (e :: rest))[rest.length]? = some e.cell := by
  rw [pathOf_cons, List.getElem?_append_right (by rw [pathOf_length])]
  simp [pathOf_length]

theorem PathOK_idx {n sx sy : Nat} {b : Board} :
    ∀ {s : List StackEntry}, PathOK n sx sy b s → PathIdx n sx sy b s := by
  intro s
  induction s with
  | nil =>
    intro _
    exact ⟨fun k h1 h2 => by simp at h2; omega, fun h => by simp at h,
      fun k h1 h2 => by simp at h2⟩
  | cons e rest ih =>
    intro h
    obtain ⟨e1, e2, e3, e4, e5⟩ := h
    obtain ⟨i1, i2, i3⟩ := ih e5
    refine ⟨?_, ?_, ?_⟩
    · intro k h1 h2
      simp only [List.length_cons] at h2
      by_cases hk : k = rest.length + 1
      · refine ⟨e.cell, ?_, e1, e2, by rw [hk]; exact e3⟩
        rw [hk]
        exact pathOf_getElem?_top e rest
      · obtain ⟨c, hc, hr⟩ := i1 k h1 (by omega)
        exact ⟨c, by rw [pathOf_getElem?_tail e rest (by omega)]; exact hc, hr⟩
    · intro _
      cases rest with
      | nil =>
        obtain ⟨hx, hy⟩ := e4
        rw [← hx, ← hy]
        exact pathOf_getElem?_top e []
      | cons f rest' =>
        rw [pathOf_getElem?_tail e (f :: rest') (by simp)]
        exact i2 (by simp)
    · intro k h1 h2
      simp only [List.length_cons] at h2
      by_cases hk : k = rest.length
      · cases rest with
        | nil => simp at hk; omega
        | cons f rest' =>
          refine ⟨f.cell, e.cell, ?_, ?_, e4⟩
          · rw [pathOf_getElem?_tail e (f :: rest') (by rw [hk]; simp), hk]
            exact pathOf_getElem?_top f rest'
          · rw [hk]
            exact pathOf_getElem?_top e (f :: rest')
      · obtain ⟨c, d, hc, hd, hcd⟩ := i3 k h1 (by omega)
        exact ⟨c, d, by rw [pathOf_getElem?_tail e rest (by omega)]; exact hc,
          by rw [pathOf_getElem?_tail e rest (by omega)]; exact hd, hcd⟩

theorem PathIdx_ok {n sx sy : Nat} {b : Board} :
    ∀ {s : List StackEntry}, PathIdx n sx sy b s → PathOK n sx sy b s := by
  intro s
  induction s with
  | nil => intro _; trivial
  | cons e rest ih =>
    intro h
    obtain ⟨i1, i2, i3⟩ := h
    have htop : ∃ c, (pathOf (e :: rest))[rest.length + 1 - 1]? = some c ∧ c.1 < n ∧ c.2 < n ∧
        b.get c.1 c.2 = rest.length + 1 := i1 (rest.length + 1) (by omega) (by simp)
    obtain ⟨c, hc, c1, c2, c3⟩ := htop
    simp only [Nat.add_sub_cancel] at hc
    rw [pathOf_getElem?_top e rest] at hc
    injection hc with hc
    subst hc
    refine ⟨c1, c2, c3, ?_, ih ⟨?_, ?_, ?_⟩⟩
    · cases rest with
      | nil =>
        have := i2 (by simp)
        have h0 := pathOf_getElem?_top e []
        simp only [List.length_nil] at h0
        rw [h0] at this
        injection this with this
        exact ⟨congrArg Prod.fst this, congrArg Prod.snd this⟩
      | cons f rest' =>
        obtain ⟨c, d, hc, hd, hcd⟩ := i3 (rest'.length + 1) (by omega) (by simp)
        simp only [Nat.add_sub_cancel] at hc
        rw [pathOf_getElem?_tail e (f :: rest') (by simp), pathOf_getElem?_top f rest'] at hc
        have hd' : (pathOf (e :: f :: rest'))[(f :: rest').length]? = some d := hd
        rw [pathOf_getElem?_top e (f :: rest')] at hd'
        injection hc with hc
        injection hd' with hd'
        rw [← hc, ← hd'] at hcd
        exact hcd
    · intro k h1 h2
      obtain ⟨c, hc, hr⟩ := i1 k h1 (by simp only [List.length_cons]; omega)
      exact ⟨c, by rw [← pathOf_getElem?_tail e rest (by omega)]; exact hc, hr⟩
    · intro h1
      rw [← pathOf_getElem?_tail e rest (by omega)]
      exact i2 (by simp)
    · intro k h1 h2
      obtain ⟨c, d, hc, hd, hcd⟩ := i3 k h1 (by simp only [List.length_cons]; omega)
      exact ⟨c, d, by rw [← pathOf_getElem?_tail e rest (by omega)]; exact hc,
        by rw [← pathOf_getElem?_tail e rest (by omega)]; exact hd, hcd⟩

theorem PathOK_nodup {n sx sy : Nat} {b : Board} :
    ∀ {s : List StackEntry}, PathOK n sx sy b s → (pathOf s).Nodup := by
  intro s
  induction s with
  | nil => intro _; simp [pathOf]
  | cons e rest ih =>
    intro h
    obtain ⟨_, _, e3, _, e5⟩ := h
    rw [pathOf_cons]
    refine List.Nodup.append (ih e5) (List.nodup_singleton _) ?_
    intro c hc hc'
    rw [List.mem_singleton] at hc'
    obtain ⟨f, hf, hfc⟩ := mem_pathOf_iff.mp hc
    have hv := (PathOK_values e5 f hf).2.1
    rw [hc'] at hfc
    simp only [StackEntry.cell, Prod.mk.injEq] at hfc
    rw [hfc.1, hfc.2] at hv
    omega

theorem PathInv_frame {n sx sy : Nat} {st : State} (h : PathInv n sx sy st) :
    FrameInv n sx sy st := by
  obtain ⟨_, hpath, hzero⟩ := h
  refine ⟨PathOK_idx hpath, ?_, PathOK_nodup hpath⟩
  intro a c ha hc hnot
  by_contra hne
  obtain ⟨f, hf, hfx, hfy⟩ := hzero a c ha hc hne
  apply hnot
  have := mem_pathOf hf
  simpa [StackEntry.cell, hfx, hfy] using this

theorem FrameInv_path {n sx sy : Nat} {st : State} (hwf : Board.WF n st.checkerboard)
    (h : FrameInv n sx sy st) : PathInv n sx sy st := by
  obtain ⟨hidx, hzero, _⟩ := h
  refine ⟨hwf, PathIdx_ok hidx, ?_⟩
  intro a c ha hc hne
  by_contra hno
  apply hne
  apply hzero a c ha hc
  intro hmem
  obtain ⟨f, hf, hfc⟩ := mem_pathOf_iff.mp hmem
  simp only [StackEntry.cell, Prod.mk.injEq] at hfc
  exact hno ⟨f, hf, hfc.1, hfc.2⟩

theorem LoopReach_inv {n maxTries x y combIdx : Nat} (hn : n * n < 2 ^ 31) (hx : x < n)
    (hy : y < n) {st : State} (h : LoopReach n maxTries (movesFor combIdx) x y st) :
    PathInv n x y st ∧ st.stack.length ≤ n * n := by
  induction h with
  | init =>
    refine ⟨PathInv_init hx hy, ?_⟩
    simp only [initState, List.length_cons, List.length_nil]
    exact Nat.mul_pos (by omega) (by omega)
  | pass _ hc hb ih =>
    refine ⟨PathInv_step hn _ _ _ _ _ ih.1 hb, ?_⟩
    rcases loopBody_next hb with ⟨j, x', y', t', _, rfl⟩ | ⟨t', _, rfl⟩
    · simp only [List.length_cons]; omega
    · simp only; omega
  | stop _ hc hb ih =>
    obtain ⟨t', _, rfl⟩ := loopBody_budget hb
    exact ⟨⟨ih.1.1, ih.1.2.1, ih.1.2.2⟩, ih.2⟩

/-- C15: every state the main loop reaches from an in-range start satisfies the
invariant by depth (frame `k` lies on the board and its cell holds `k`, frame `1`
is the start cell, frames `k` and `k + 1` are one knight move apart, every other
cell holds `0`, the frames stand on pairwise distinct cells), and every pass
through the body, push or pop, takes a state with the invariant to a state with
the invariant. -/
theorem loop_states_form_path (n maxTries x y combIdx : Nat) (hn : n * n < 2 ^ 31)
    (hx : x < n) (hy : y < n) :
    (∀ st, LoopReach n maxTries (movesFor combIdx) x y st → FrameInv n x y st) ∧
    (∀ b e rest t st, Board.WF n b → FrameInv n x y ⟨b, e :: rest, t⟩ →
      rest.length + 1 < n * n →
      loopBody n maxTries (movesFor combIdx) b e rest t = Step.next st →
      Board.WF n st.checkerboard ∧ FrameInv n x y st) := by
  constructor
  · intro st h
    exact PathInv_frame (LoopReach_inv hn hx hy h).1
  · intro b e rest t st hwf hF _ hb
    have hP := PathInv_step hn b e rest t st (FrameInv_path hwf hF) hb
    exact ⟨hP.1, PathInv_frame hP⟩

theorem loop_states_form_path_witness :
    5 * 5 < 2 ^ 31 ∧ 0 < 5 ∧
    LoopReach 5 1000 (movesFor 0) 0 0
      ⟨((emptyBoard 5).set 0 0 1).set 1 2 2, [⟨1, 2, 0⟩, ⟨0, 0, 3⟩], 3⟩ ∧
    FrameInv 5 0 0 ⟨((emptyBoard 5).set 0 0 1).set 1 2 2, [⟨1, 2, 0⟩, ⟨0, 0, 3⟩], 3⟩ :=
  have hr : LoopReach 5 1000 (movesFor 0) 0 0
      ⟨((emptyBoard 5).set 0 0 1).set 1 2 2, [⟨1, 2, 0⟩, ⟨0, 0, 3⟩], 3⟩ :=
    LoopReach.pass LoopReach.init (by decide) rfl
  ⟨by decide, by decide, hr,
    (loop_states_form_path 5 1000 0 0 0 (by decide) (by decide) (by decide)).1 _ hr⟩

/-! ## Index safety -/

theorem validAccesses_inRange (n x y : Nat) : ∀ a ∈ validAccesses n x y, a.InRange n := by
  intro a ha
  unfold validAccesses at ha
  split_ifs at ha with h
  · rw [List.mem_singleton] at ha
    rw [ha]
    exact h
  · simp at ha

theorem scanAccesses_inRange (n maxTries : Nat) (moves : List Vec2i) (b : Board)
    (e : StackEntry) (depth : Nat) (hd1 : 1 ≤ depth) (hd2 : depth + 1 ≤ n * n) :
    ∀ (k i t : Nat), k ≤ MOVES_COUNT - i →
      ∀ a ∈ scanAccesses n maxTries moves b e depth k i t, a.InRange n := by
  intro k
  induction k with
  | zero => intro i t _ a ha; simp [scanAccesses] at ha
  | succ k ih =>
    intro i t hik a ha
    simp only [scanAccesses, List.mem_cons] at ha
    rcases ha with rfl | rfl | ha
    · exact ⟨hd1, by omega⟩
    · show i < MOVES_COUNT
      omega
    · split_ifs at ha with h1 h2
      · simp at ha
      · rcases List.mem_append.mp ha with ha | ha
        · exact validAccesses_inRange n _ _ a ha
        · simp only [List.mem_cons, List.mem_singleton, List.not_mem_nil, or_false] at ha
          rcases ha with rfl | rfl | rfl
          · exact ⟨hd1, by omega⟩
          · exact ⟨by omega, hd2⟩
          · exact ⟨(IS_VALID_true h2).1, (IS_VALID_true h2).2.1⟩
      · rcases List.mem_append.mp ha with ha | ha
        · exact validAccesses_inRange n _ _ a ha
        · exact ih (i + 1) (t + 1) (by omega) a ha

/-- C16: from an in-range start, the stack depth of every state the main loop
reaches is at most `n * n`, and every indexed access of the prologue and of every
pass through the body is in range: stack entries between `1` and `n * n` (never
entry `0`), board coordinates below `n`, offset indices below `MOVES_COUNT`. -/
theorem accesses_in_range (n maxTries x y combIdx : Nat) (hn : n * n < 2 ^ 31)
    (hx : x < n) (hy : y < n) :
    (∀ a ∈ prologueAccesses n x y, a.InRange n) ∧
    (∀ st, LoopReach n maxTries (movesFor combIdx) x y st → st.stack.length ≤ n * n) ∧
    (∀ b e rest t, LoopReach n maxTries (movesFor combIdx) x y ⟨b, e :: rest, t⟩ →
      rest.length + 1 < n * n →
      ∀ a ∈ bodyAccesses n maxTries (movesFor combIdx) b e rest t, a.InRange n) := by
  have hnn : 0 < n * n := Nat.mul_pos (by omega) (by omega)
  refine ⟨?_, fun st h => (LoopReach_inv hn hx hy h).2, ?_⟩
  · intro a ha
    rcases List.mem_append.mp ha with ha | ha
    · exact validAccesses_inRange n _ _ a ha
    · simp only [List.mem_cons, List.mem_singleton, List.not_mem_nil, or_false] at ha
      rcases ha with rfl | rfl
      · exact ⟨Nat.le_refl 1, hnn⟩
      · exact ⟨hx, hy⟩
  · intro b e rest t hr hc a ha
    have hP := (LoopReach_inv hn hx hy hr).1
    have he := hP.2.1
    simp only [bodyAccesses, List.mem_cons, List.mem_append] at ha
    rcases ha with rfl | ha | ha
    · exact ⟨by omega, by omega⟩
    · exact scanAccesses_inRange n maxTries _ b e _ (by omega) (by omega) _ _ _
        (Nat.le_refl _) a ha
    · split at ha
      · simp only [List.mem_cons, List.mem_singleton, List.not_mem_nil, or_false] at ha
        rcases ha with rfl | rfl
        · exact ⟨by omega, by omega⟩
        · exact ⟨he.1, he.2.1⟩
      · simp at ha

theorem accesses_in_range_witness :
    5 * 5 < 2 ^ 31 ∧ 0 < 5 ∧
    bodyAccesses 5 1000 (movesFor 0) ((emptyBoard 5).set 0 0 1) ⟨0, 0, 0⟩ [] 0 =
      [Access.frame 1, Access.frame 1, Access.move 0, Access.frame 1, Access.move 1,
       Access.frame 1, Access.move 2, Access.cell 1 2, Access.frame 1, Access.frame 2,
       Access.cell 1 2] ∧
    ∀ a ∈ bodyAccesses 5 1000 (movesFor 0) ((emptyBoard 5).set 0 0 1) ⟨0, 0, 0⟩ [] 0,
      a.InRange 5 :=
  ⟨by decide, by decide, by decide,
    (accesses_in_range 5 1000 0 0 0 (by decide) (by decide) (by decide)).2.2
      _ _ _ _ LoopReach.init (by decide)⟩

/-! ## The recursive search against the iterative one -/

theorem movesFor_zero : movesFor 0 = canonicalMoves := rfl

theorem scanMoves_frame (n maxTries : Nat) (moves : List Vec2i) (b : Board)
    (e e' : StackEntry) (hx : e.x = e'.x) (hy : e.y = e'.y) :
    ∀ (k i t : Nat), scanMoves n maxTries moves b e k i t = scanMoves n maxTries moves b e' k i t := by
  intro k
  induction k with
  | zero => intro i t; rfl
  | succ k ih =>
    intro i t
    simp only [scanMoves, hx, hy, ih]

theorem mainLoop_succ_next {n maxTries : Nat} {moves : List Vec2i} {b : Board}
    {e : StackEntry} {rest : List StackEntry} {t : Nat} {st : State} (fuel : Nat)
    (hc : rest.length + 1 < n * n)
    (hb : loopBody n maxTries moves b e rest t = Step.next st) :
    mainLoop n maxTries moves (fuel + 1) ⟨b, e :: rest, t⟩ = mainLoop n maxTries moves fuel st := by
  simp only [mainLoop, if_pos hc, hb]

theorem RunsTo_step {n maxTries : Nat} {b : Board} {e : StackEntry} {rest : List StackEntry}
    {t : Nat} {st : State} (hc : rest.length + 1 < n * n)
    (h : RunsTo n maxTries ⟨b, e :: rest, t⟩ st) :
    ∃ s', loopBody n maxTries (movesFor 0) b e rest t = Step.next s' ∧ RunsTo n maxTries s' st := by
  obtain ⟨fuel, hf⟩ := h
  cases fuel with
  | zero => simp [mainLoop, hc] at hf
  | succ fuel =>
    simp only [mainLoop, if_pos hc] at hf
    split at hf
    · exact absurd hf (by simp)
    · rename_i s' hb
      exact ⟨s', hb, fuel, hf⟩

theorem RunsTo_of_step {n maxTries : Nat} {b : Board} {e : StackEntry}
    {rest : List StackEntry} {t : Nat} {s' st : State} (hc : rest.length + 1 < n * n)
    (hb : loopBody n maxTries (movesFor 0) b e rest t = Step.next s')
    (h : RunsTo n maxTries s' st) : RunsTo n maxTries ⟨b, e :: rest, t⟩ st := by
  obtain ⟨fuel, hf⟩ := h
  exact ⟨fuel + 1, by rw [mainLoop_succ_next fuel hc hb]; exact hf⟩

theorem RunsTo_full {n maxTries : Nat} {b : Board} {e : StackEntry} {rest : List StackEntry}
    {t : Nat} {st : State} (hc : ¬ rest.length + 1 < n * n)
    (h : RunsTo n maxTries ⟨b, e :: rest, t⟩ st) : st = ⟨b, e :: rest, t⟩ := by
  obtain ⟨fuel, hf⟩ := h
  cases fuel with
  | zero =>
    simp only [mainLoop, if_neg hc] at hf
    injection hf with hf
    exact hf.symm
  | succ fuel =>
    simp only [mainLoop, if_neg hc] at hf
    injection hf with hf
    exact hf.symm

theorem RunsTo_empty {n maxTries : Nat} {b : Board} {t : Nat} {st : State}
    (h : RunsTo n maxTries ⟨b, [], t⟩ st) : st = ⟨b, [], t⟩ := by
  obtain ⟨fuel, hf⟩ := h
  cases fuel with
  | zero =>
    simp only [mainLoop] at hf
    injection hf with hf
    exact hf.symm
  | succ fuel =>
    simp only [mainLoop] at hf
    injection hf with hf
    exact hf.symm

/-- One round of the inner loop at index `i`, seen from the body of the main
loop: the pass does not end normally if the budget is hit; a valid target is
pushed; past an invalid target the pass goes on as from index `i + 1` with one
more try. -/
theorem loopBody_round {n maxTries : Nat} (moves : List Vec2i) (b : Board) (x y i : Nat)
    (rest : List StackEntry) (t : Nat) (hi : i < MOVES_COUNT) :
    (∀ s', loopBody n maxTries moves b ⟨x, y, i⟩ rest t = Step.next s' → t + 1 < maxTries) ∧
    (t + 1 < maxTries →
      IS_VALID n b (addU32 x (moves.getD i ⟨0, 0⟩).x) (addU32 y (moves.getD i ⟨0, 0⟩).y) = true →
      loopBody n maxTries moves b ⟨x, y, i⟩ rest t =
        Step.next ⟨b.set (addU32 x (moves.getD i ⟨0, 0⟩).x) (addU32 y (moves.getD i ⟨0, 0⟩).y)
            (rest.length + 2),
          ⟨addU32 x (moves.getD i ⟨0, 0⟩).x, addU32 y (moves.getD i ⟨0, 0⟩).y, 0⟩ ::
            ⟨x, y, i + 1⟩ :: rest, t + 1⟩) ∧
    (t + 1 < maxTries →
      IS_VALID n b (addU32 x (moves.getD i ⟨0, 0⟩).x) (addU32 y (moves.getD i ⟨0, 0⟩).y) = false →
      ∀ s', loopBody n maxTries moves b ⟨x, y, i⟩ rest t = Step.next s' →
        loopBody n maxTries moves b ⟨x, y, i + 1⟩ rest (t + 1) = Step.next s') := by
  have h8 : MOVES_COUNT - i = (MOVES_COUNT - (i + 1)) + 1 := by omega
  refine ⟨?_, ?_, ?_⟩
  · intro s' h
    by_contra hlt
    unfold loopBody at h
    simp only [h8, scanMoves] at h
    rw [if_pos (by omega)] at h
    exact absurd h (by simp)
  · intro hlt hv
    unfold loopBody
    simp only [h8, scanMoves]
    rw [if_neg (by omega), if_pos hv]
  · intro hlt hv s' h
    unfold loopBody at h ⊢
    simp only [h8, scanMoves] at h
    rw [if_neg (by omega), if_neg (by rw [hv]; simp)] at h
    simp only
    rw [scanMoves_frame n maxTries moves b ⟨x, y, i + 1⟩ ⟨x, y, i⟩ rfl rfl]
    split at h
    · exact absurd h (by simp)
    · exact h
    · exact h

theorem knightTourR_past (n d : Nat) (g : Globals) (x y num : Nat) (hd : 1 ≤ d)
    (hnum : num > n * n) : knightTourR n d g x y num = some (true, g) := by
  cases d with
  | zero => omega
  | succ d => simp only [knightTourR, if_pos hnum]

theorem loopBody_idx_end {n maxTries : Nat} (moves : List Vec2i) (b : Board) (x y : Nat)
    (rest : List StackEntry) (t : Nat) :
    loopBody n maxTries moves b ⟨x, y, MOVES_COUNT⟩ rest t = Step.next ⟨b.set x y 0, rest, t⟩ := by
  unfold loopBody
  simp only [Nat.sub_self, scanMoves]

theorem chainSim_of_callSim {n maxTries d : Nat} (hcall : CallSim n maxTries d) :
    ChainSim n maxTries d := by
  intro k
  induction k with
  | zero =>
    intro j b rest x y t st hj hc _ hrun
    have hj8 : j = MOVES_COUNT := by omega
    subst hj8
    right
    obtain ⟨s', hb, hrun'⟩ := RunsTo_step hc hrun
    rw [loopBody_idx_end] at hb
    injection hb with hb
    subst hb
    exact ⟨b, t, rfl, hrun'⟩
  | succ k ih =>
    intro j b rest x y t st hj hc hd hrun
    have hj8 : j < MOVES_COUNT := by omega
    have hlen : j < canonicalMoves.length := hj8
    have hdrop : canonicalMoves.drop j
        = canonicalMoves.getD j ⟨0, 0⟩ :: canonicalMoves.drop (j + 1) := by
      rw [List.getD_eq_getElem _ _ hlen]
      exact List.drop_eq_getElem_cons hlen
    rw [hdrop]
    simp only [orChain]
    rcases hcall b rest x y j t st hc hd hj8 hrun with ⟨hR, hne⟩ | ⟨b', t', hR, hrun'⟩
    · left
      rw [hR]
      exact ⟨rfl, hne⟩
    · rw [hR]
      simp only
      exact ih (j + 1) b' rest x y t' st (by omega) hc hd hrun'

theorem callSim_all {n maxTries : Nat} (hmax : maxTries ≤ UINT64_MAX) :
    ∀ d, CallSim n maxTries d := by
  intro d
  induction d with
  | zero =>
    intro b rest x y i t st hc hd _ _
    omega
  | succ d ih =>
    intro b rest x y i t st hc hd hi hrun
    obtain ⟨s', hb, hrun'⟩ := RunsTo_step hc hrun
    obtain ⟨r1, r2, r3⟩ := @loopBody_round n maxTries (movesFor 0) b x y i rest t hi
    have hlt := r1 s' hb
    rw [movesFor_zero] at r2 r3
    have hmod : (t + 1 + 1) % 18446744073709551616 = t + 1 + 1 := by
      apply Nat.mod_eq_of_lt
      unfold UINT64_MAX at hmax
      omega
    have hnum : ¬ rest.length + 2 > n * n := by omega
    by_cases hv : IS_VALID n b (addU32 x (canonicalMoves.getD i ⟨0, 0⟩).x)
        (addU32 y (canonicalMoves.getD i ⟨0, 0⟩).y) = true
    · have hb2 := r2 hlt hv
      rw [movesFor_zero] at hb
      rw [hb] at hb2
      injection hb2 with hb2
      subst hb2
      by_cases hfull : rest.length + 2 < n * n
      · have hQ := chainSim_of_callSim ih 8 0 _ (⟨x, y, i + 1⟩ :: rest) _ _ (t + 1) st rfl
          (by simp only [List.length_cons]; omega) (by simp only [List.length_cons]; omega) hrun'
        have hnum' : (({ x := x, y := y, nextMoveIdx := i + 1 } : StackEntry) :: rest).length + 2
            = rest.length + 2 + 1 := by simp
        rw [hnum'] at hQ
        simp only [List.drop_zero] at hQ
        rcases hQ with ⟨hch, hne⟩ | ⟨b', t', hch, hrun''⟩
        · left
          refine ⟨?_, hne⟩
          simp only [knightTourR, if_neg hnum, hv, if_true, hmod]
          rw [hch]
        · right
          refine ⟨b'.set (addU32 x (canonicalMoves.getD i ⟨0, 0⟩).x)
            (addU32 y (canonicalMoves.getD i ⟨0, 0⟩).y) 0, t', ?_, hrun''⟩
          simp only [knightTourR, if_neg hnum, hv, if_true, hmod]
          rw [hch]
      · have hst := @RunsTo_full n maxTries _ _ _ _ _ (by simp only [List.length_cons]; omega) hrun'
        subst hst
        left
        refine ⟨?_, by simp⟩
        have hd1 : 1 ≤ d := by omega
        simp only [knightTourR, if_neg hnum, hv, if_true, hmod]
        simp only [canonicalMoves, orChain]
        rw [knightTourR_past n d _ _ _ _ hd1 (by omega)]
    · have hv' : IS_VALID n b (addU32 x (canonicalMoves.getD i ⟨0, 0⟩).x)
          (addU32 y (canonicalMoves.getD i ⟨0, 0⟩).y) = false := by
        cases hh : IS_VALID n b (addU32 x (canonicalMoves.getD i ⟨0, 0⟩).x)
          (addU32 y (canonicalMoves.getD i ⟨0, 0⟩).y) with
        | true => exact absurd hh hv
        | false => rfl
      rw [movesFor_zero] at hb
      have hb3 := r3 hlt hv' s' hb
      right
      refine ⟨b, t + 1, ?_, RunsTo_of_step hc (by rw [movesFor_zero]; exact hb3) hrun'⟩
      simp only [knightTourR, if_neg hnum, hv', hmod]
      simp

/-- C20: on the canonical order, for an in-range start, if `knightTourI(x, y, 0)`
leaves its loop by the loop condition (not on the budget) in the state `st`, then
`knightTourR(x, y)`, run from an all-zero global board and global `tries = 0` with
room for `n * n + 1` nested calls, returns; it returns the same `found`, leaves
the global board equal to the board of `st` and the global `tries` equal to the
tries of `st` plus `1`. -/
theorem recursive_agrees_with_iterative (n maxTries x y d : Nat) (st : State)
    (hmax : maxTries ≤ UINT64_MAX) (hx : x < n) (hy : y < n) (hd : n * n + 1 ≤ d)
    (h : knightTourIExit n maxTries x y 0 = some (Exit.finished st)) :
    knightTourR n d ⟨emptyBoard n, 0⟩ x y 1
      = some (!st.stack.isEmpty, ⟨st.checkerboard, st.tries + 1⟩) := by
  rw [knightTourIExit_eq maxTries 0 hx hy] at h
  injection h with h
  have hrun : RunsTo n maxTries (initState n x y) st := ⟨_, h⟩
  have hnn : 0 < n * n := Nat.mul_pos (by omega) (by omega)
  obtain ⟨d0, rfl⟩ : ∃ d0, d = d0 + 1 := ⟨d - 1, by omega⟩
  have hnum : ¬ 1 > n * n := by omega
  have hv := (IS_VALID_emptyBoard n x y).mpr ⟨hx, hy⟩
  simp only [knightTourR, if_neg hnum, hv, if_true]
  unfold initState at hrun
  by_cases hfull : 1 < n * n
  · have hQ := chainSim_of_callSim (callSim_all hmax d0) 8 0 _ [] x y 0 st rfl
      (by simpa using hfull) (by simp only [List.length_nil]; omega) hrun
    simp only [List.drop_zero, List.length_nil, Nat.zero_add] at hQ
    rcases hQ with ⟨hch, hne⟩ | ⟨b', t', hch, hrun'⟩
    · have h01 : (0 + 1) % 18446744073709551616 = 1 := by decide
      rw [h01, hch]
      cases hs : st.stack with
      | nil => exact absurd hs hne
      | cons a l => simp
    · have h01 : (0 + 1) % 18446744073709551616 = 1 := by decide
      rw [h01, hch]
      have hst := RunsTo_empty hrun'
      subst hst
      simp
  · have hst := @RunsTo_full n maxTries _ _ _ _ _ (by simpa using hfull) hrun
    subst hst
    have h01 : (0 + 1) % 18446744073709551616 = 1 := by decide
    rw [h01]
    simp only [canonicalMoves, orChain]
    rw [knightTourR_past n d0 _ _ _ _ (by omega) (by omega)]
    simp

set_option maxRecDepth 100000 in
theorem recursive_agrees_with_iterative_witness :
    1000 ≤ UINT64_MAX ∧ 0 < 3 ∧ 3 * 3 + 1 ≤ 10 ∧
    knightTourIExit 3 1000 0 0 0
      = some (Exit.finished ⟨[[0, 0, 0], [0, 0, 0], [0, 0, 0]], [], 120⟩) ∧
    knightTourR 3 10 ⟨emptyBoard 3, 0⟩ 0 0 1
      = some (false, ⟨[[0, 0, 0], [0, 0, 0], [0, 0, 0]], 121⟩) :=
  have h : knightTourIExit 3 1000 0 0 0
      = some (Exit.finished ⟨[[0, 0, 0], [0, 0, 0], [0, 0, 0]], [], 120⟩) := by rfl
  ⟨by decide, by decide, by decide, h,
    recursive_agrees_with_iterative 3 1000 0 0 10 _ (by decide) (by decide) (by decide)
      (by decide) h⟩

end KnightTour
